import Mathlib

/-!
Verification of the ownership and lifecycle model of `src/middle/types.rs`
(libffi-rs).  The Rust code manipulates raw C heap pointers: descriptors
(`low::ffi_type`) and null-terminated arrays of descriptor addresses.  We
embed the mutable C heap as an explicit state value threaded through every
translated function:

* addresses are natural numbers, `0` encodes the null pointer;
* the process-wide static scalar descriptors live at fixed addresses below
  `heapBase`; `malloc` hands out fresh addresses starting at `heapBase`,
  so a fresh allocation is never null and never aliases a static;
* a descriptor block is an `FfiType` record, an array block is a list of
  slots (`none` = uninitialized memory, `some v` = a written address word);
* `free` removes the block and records the freed address in a chronological
  `frees` trace, so freeing twice is directly observable in the trace.

The two pointer-chasing recursions of the source (`ffi_type_clone` /
`ffi_type_array_clone` and `ffi_type_destroy` / `ffi_type_array_destroy`)
are translated with an explicit fuel argument; every theorem about them
supplies enough fuel for the tree being traversed, so the fuel never runs
out on the executions the theorems describe.
-/

set_option maxRecDepth 4000

namespace LibffiRs

/-- Tag constant from the `low::type_tag` module: the libffi code for a
struct descriptor (`FFI_TYPE_STRUCT`). -/
def type_tag.STRUCT : Nat := 13

/-- Shallow embedding of `low::ffi_type`, the fixed-layout C descriptor:
`size`, `alignment`, the type tag `type_`, and `elements`, the address of a
null-terminated array of descriptor addresses (`0` encodes the null
pointer; `elements` is meaningful only when `type_ = type_tag.STRUCT`). -/
structure FfiType where
  size : Nat
  alignment : Nat
  type_ : Nat
  elements : Nat
  deriving DecidableEq

/-- Address of the static descriptor `low::ffi_type_void`. -/
def ffi_type_void : Nat := 1

/-- Address of the static descriptor `low::ffi_type_uint8`. -/
def ffi_type_uint8 : Nat := 2

/-- Address of the static descriptor `low::ffi_type_sint8`. -/
def ffi_type_sint8 : Nat := 3

/-- Address of the static descriptor `low::ffi_type_uint16`. -/
def ffi_type_uint16 : Nat := 4

/-- Address of the static descriptor `low::ffi_type_sint16`. -/
def ffi_type_sint16 : Nat := 5

/-- Address of the static descriptor `low::ffi_type_uint32`. -/
def ffi_type_uint32 : Nat := 6

/-- Address of the static descriptor `low::ffi_type_sint32`. -/
def ffi_type_sint32 : Nat := 7

/-- Address of the static descriptor `low::ffi_type_uint64`. -/
def ffi_type_uint64 : Nat := 8

/-- Address of the static descriptor `low::ffi_type_sint64`. -/
def ffi_type_sint64 : Nat := 9

/-- Address of the static descriptor `low::ffi_type_float`. -/
def ffi_type_float : Nat := 10

/-- Address of the static descriptor `low::ffi_type_double`. -/
def ffi_type_double : Nat := 11

/-- Address of the static descriptor `low::ffi_type_longdouble`. -/
def ffi_type_longdouble : Nat := 12

/-- Address of the static descriptor `low::ffi_type_pointer`. -/
def ffi_type_pointer : Nat := 13

/-- Address of the static descriptor `low::ffi_type_complex_float`. -/
def ffi_type_complex_float : Nat := 14

/-- Address of the static descriptor `low::ffi_type_complex_double`. -/
def ffi_type_complex_double : Nat := 15

/-- Address of the static descriptor `low::ffi_type_complex_longdouble`. -/
def ffi_type_complex_longdouble : Nat := 16

/-- The process-wide static scalar descriptors, keyed by their address.
Sizes and alignments are the x86-64 values; the tags are the libffi type
codes (`FFI_TYPE_VOID = 0`, `FFI_TYPE_FLOAT = 2`, `FFI_TYPE_DOUBLE = 3`,
`FFI_TYPE_LONGDOUBLE = 4`, `FFI_TYPE_UINT8 = 5` .. `FFI_TYPE_SINT64 = 12`,
`FFI_TYPE_POINTER = 14`, `FFI_TYPE_COMPLEX = 15`).  What matters for the
ownership protocol is only that none of these tags is `type_tag.STRUCT`. -/
def statics : List (Nat × FfiType) :=
  [ (ffi_type_void,               ⟨1,  1,  0,  0⟩),
    (ffi_type_uint8,              ⟨1,  1,  5,  0⟩),
    (ffi_type_sint8,              ⟨1,  1,  6,  0⟩),
    (ffi_type_uint16,             ⟨2,  2,  7,  0⟩),
    (ffi_type_sint16,             ⟨2,  2,  8,  0⟩),
    (ffi_type_uint32,             ⟨4,  4,  9,  0⟩),
    (ffi_type_sint32,             ⟨4,  4,  10, 0⟩),
    (ffi_type_uint64,             ⟨8,  8,  11, 0⟩),
    (ffi_type_sint64,             ⟨8,  8,  12, 0⟩),
    (ffi_type_float,              ⟨4,  4,  2,  0⟩),
    (ffi_type_double,             ⟨8,  8,  3,  0⟩),
    (ffi_type_longdouble,         ⟨16, 16, 4,  0⟩),
    (ffi_type_pointer,            ⟨8,  8,  14, 0⟩),
    (ffi_type_complex_float,      ⟨8,  4,  15, 0⟩),
    (ffi_type_complex_double,     ⟨16, 8,  15, 0⟩),
    (ffi_type_complex_longdouble, ⟨32, 16, 15, 0⟩) ]

/-- First address handed out by the modelled `malloc`; all static
descriptors live strictly below it. -/
def heapBase : Nat := 32

/-- Association-list lookup by address (first match wins, like reading the
most recent allocation at that address). -/
def alookup {α : Type} : List (Nat × α) → Nat → Option α
  | [], _ => none
  | p :: rest, a => if p.1 = a then some p.2 else alookup rest a

/-- The static descriptor stored at address `a`, if `a` is one of the
process-wide statics. -/
def staticDesc (a : Nat) : Option FfiType :=
  alookup statics a

/-- Update the payload of every entry with key `k` (the blocks are keyed by
unique addresses, so at most one visible entry changes). -/
def updateA {α : Type} : List (Nat × α) → Nat → (α → α) → List (Nat × α)
  | [], _, _ => []
  | p :: rest, k, f =>
    (if p.1 = k then (p.1, f p.2) else p) :: updateA rest k f

/-- Drop every block whose address is listed in `ks`. -/
def removeKeys {α : Type} : List Nat → List (Nat × α) → List (Nat × α)
  | _, [] => []
  | ks, p :: rest =>
    if p.1 ∈ ks then removeKeys ks rest else p :: removeKeys ks rest

/-- The modelled C heap: descriptor blocks, array blocks (slots of
descriptor addresses; `none` is uninitialized memory), the next fresh
address, and the chronological trace of every `libc::free` call. -/
structure Heap where
  descs : List (Nat × FfiType)
  arrs : List (Nat × List (Option Nat))
  next : Nat
  frees : List Nat
  deriving DecidableEq

/-- Model of `libc::free(a)`: the block at `a` disappears and the call is
recorded in the trace.  A second `free` of the same address appends the
address to the trace again — that is exactly how a double free shows up. -/
def free (a : Nat) (h : Heap) : Heap :=
  { h with descs := removeKeys [a] h.descs,
           arrs := removeKeys [a] h.arrs,
           frees := h.frees ++ [a] }

/-- Dereference a descriptor address (`*victim` on a `Type_`): statics are
visible at their fixed addresses, everything else is a heap block. -/
def readDesc (h : Heap) (a : Nat) : Option FfiType :=
  match staticDesc a with
  | some d => some d
  | none => alookup h.descs a

/-- Read slot `i` of the array block at `a` (`*array.offset(i)`); `none`
means the read is undefined (unallocated block, out of bounds, or
uninitialized slot). -/
def readSlot (h : Heap) (a i : Nat) : Option Nat :=
  match alookup h.arrs a with
  | some block =>
    match block.get? i with
    | some (some v) => some v
    | _ => none
  | none => none

/-- Write slot `i` of the array block at `a` (`*array.offset(i) = v`). -/
def writeSlot (h : Heap) (a i v : Nat) : Heap :=
  { h with arrs := updateA h.arrs a (fun block => block.set i (some v)) }

/-- Iteration of the while-loop in `ffi_type_array_len` over the slots of a
block: count until the first null (or until the block ends / hits
uninitialized memory, which a well-formed null-terminated array never
does). -/
def scanLen : List (Option Nat) → Nat
  | some (_ + 1) :: rest => scanLen rest + 1
  | _ => 0

/-- Translation of `ffi_type_array_len`: scan the array block at `array`
from slot 0 for the null terminator. -/
def ffi_type_array_len (h : Heap) (array : Nat) : Nat :=
  match alookup h.arrs array with
  | some block => scanLen block
  | none => 0

/-- Translation of `ffi_type_array_create_empty`: `malloc` a block of
`len + 1` address slots (uninitialized) and write the null sentinel into
the last slot.  The fresh address `h.next` is nonzero, so the
`assert!(!array.is_null())` of the source passes. -/
def ffi_type_array_create_empty (len : Nat) (h : Heap) : Nat × Heap :=
  let array := h.next
  let h1 : Heap :=
    { h with arrs := (array, List.replicate (len + 1) none) :: h.arrs,
             next := h.next + 1 }
  (array, writeSlot h1 array len 0)

/-- Result of running a piece of code whose allocation failure is fatal:
either a value, or the whole process aborted. -/
inductive ProcResult (α : Type) where
  | ok : α → ProcResult α
  | abort : ProcResult α
  deriving DecidableEq

/-- Translation of `ffi_type_array_create_empty` with the `malloc` outcome
made explicit: when `malloc` returns null (`mallocOk = false`) the
`assert!(!array.is_null())` fails and the process aborts — there is no
recoverable-error return path. -/
def ffi_type_array_create_empty_checked (mallocOk : Bool) (len : Nat)
    (h : Heap) : ProcResult (Nat × Heap) :=
  if mallocOk then ProcResult.ok (ffi_type_array_create_empty len h)
  else ProcResult.abort

/-- The `for i in 0 .. size` loop of `ffi_type_array_create`: write each
member's descriptor address into the corresponding slot in input order. -/
def writeSlots (array : Nat) : List Nat → Nat → Heap → Heap
  | [], _, h => h
  | e :: rest, i, h => writeSlots array rest (i + 1) (writeSlot h array i e)

/-- Translation of `ffi_type_array_create`: allocate via
`ffi_type_array_create_empty` and copy each member handle's descriptor
address (`*elements[i].0`) into slot `i`.  The source then `mem::forget`s
every consumed `Type` handle, so no destructor runs here: the function
performs no `free` at all. -/
def ffi_type_array_create (elements : List Nat) (h : Heap) : Nat × Heap :=
  let size := elements.length
  let res := ffi_type_array_create_empty size h
  (res.1, writeSlots res.1 elements 0 res.2)

/-- Translation of `ffi_type_struct_create_raw`: `malloc` a fresh
descriptor (the fresh address is nonzero, so the source's assert passes)
and initialize `size = 0`, `alignment = 0`, `type_ = STRUCT`,
`elements = elements`. -/
def ffi_type_struct_create_raw (elements : Nat) (h : Heap) : Nat × Heap :=
  let new := h.next
  (new,
    { h with descs := (new, ⟨0, 0, type_tag.STRUCT, elements⟩) :: h.descs,
             next := h.next + 1 })

/-- Translation of `ffi_type_struct_create`: build the element array, then
wrap it in a fresh struct descriptor. -/
def ffi_type_struct_create (elements : List Nat) (h : Heap) : Nat × Heap :=
  let res := ffi_type_array_create elements h
  ffi_type_struct_create_raw res.1 res.2

mutual

/-- Translation of `ffi_type_clone`: a struct descriptor is deep-copied
(clone the element array, then wrap it via `ffi_type_struct_create_raw`);
any other descriptor is returned unchanged (the same address). -/
def ffi_type_clone : Nat → Nat → Heap → Nat × Heap
  | 0, _, h => (0, h)
  | fuel + 1, old, h =>
    match readDesc h old with
    | some d =>
      if d.type_ = type_tag.STRUCT then
        let res := ffi_type_array_clone fuel d.elements h
        ffi_type_struct_create_raw res.1 res.2
      else (old, h)
    | none => (old, h)
  termination_by structural fuel _ _ => fuel

/-- Translation of `ffi_type_array_clone`: measure the old array, allocate
a new one of equal length, and clone each slot. -/
def ffi_type_array_clone : Nat → Nat → Heap → Nat × Heap
  | 0, _, h => (0, h)
  | fuel + 1, old, h =>
    let size := ffi_type_array_len h old
    let res := ffi_type_array_create_empty size h
    cloneLoop fuel old res.1 0 size res.2
  termination_by structural fuel _ _ => fuel

/-- The `for i in 0 .. size` loop of `ffi_type_array_clone`:
`*new.offset(i) = ffi_type_clone(*old.offset(i))`. -/
def cloneLoop : Nat → Nat → Nat → Nat → Nat → Heap → Nat × Heap
  | 0, _, new, _, _, h => (new, h)
  | fuel + 1, old, new, i, size, h =>
    if i < size then
      match readSlot h old i with
      | some a =>
        let res := ffi_type_clone fuel a h
        cloneLoop fuel old new (i + 1) size (writeSlot res.2 new i res.1)
      | none => (new, h)
    else (new, h)
  termination_by structural fuel _ _ _ _ _ => fuel

end

mutual

/-- Translation of `ffi_type_destroy`: a struct descriptor's element array
is destroyed first, then the descriptor itself is freed; any other
descriptor is left alone (no-op). -/
def ffi_type_destroy : Nat → Nat → Heap → Heap
  | 0, _, h => h
  | fuel + 1, victim, h =>
    match readDesc h victim with
    | some d =>
      if d.type_ = type_tag.STRUCT then
        free victim (ffi_type_array_destroy fuel d.elements h)
      else h
    | none => h
  termination_by structural fuel _ _ => fuel

/-- Translation of `ffi_type_array_destroy`: recursively destroy each
slot's descriptor up to the null sentinel, then free the backing
allocation. -/
def ffi_type_array_destroy : Nat → Nat → Heap → Heap
  | 0, _, h => h
  | fuel + 1, victim, h => free victim (destroyLoop fuel victim 0 h)
  termination_by structural fuel _ _ => fuel

/-- The while-loop of `ffi_type_array_destroy`: destroy the descriptor in
each non-null slot, advancing until the sentinel. -/
def destroyLoop : Nat → Nat → Nat → Heap → Heap
  | 0, _, _, h => h
  | fuel + 1, arr, i, h =>
    match readSlot h arr i with
    | some (v + 1) => destroyLoop fuel arr (i + 1) (ffi_type_destroy fuel (v + 1) h)
    | _ => h
  termination_by structural fuel _ _ _ => fuel

end

/-- Accessor `Type::void`: returns the address of the static void
descriptor, touching no heap state. -/
def Type'.void (h : Heap) : Nat × Heap := (ffi_type_void, h)

/-- Accessor `Type::u8`. -/
def Type'.u8 (h : Heap) : Nat × Heap := (ffi_type_uint8, h)

/-- Accessor `Type::i8`. -/
def Type'.i8 (h : Heap) : Nat × Heap := (ffi_type_sint8, h)

/-- Accessor `Type::u16`. -/
def Type'.u16 (h : Heap) : Nat × Heap := (ffi_type_uint16, h)

/-- Accessor `Type::i16`. -/
def Type'.i16 (h : Heap) : Nat × Heap := (ffi_type_sint16, h)

/-- Accessor `Type::u32`. -/
def Type'.u32 (h : Heap) : Nat × Heap := (ffi_type_uint32, h)

/-- Accessor `Type::i32`. -/
def Type'.i32 (h : Heap) : Nat × Heap := (ffi_type_sint32, h)

/-- Accessor `Type::u64`. -/
def Type'.u64 (h : Heap) : Nat × Heap := (ffi_type_uint64, h)

/-- Accessor `Type::i64`. -/
def Type'.i64 (h : Heap) : Nat × Heap := (ffi_type_sint64, h)

/-- Accessor `Type::usize` for the 64-bit target configuration
(`#[cfg(target_pointer_width = "64")]`): an alias of `Type::u64`. -/
def Type'.usize (h : Heap) : Nat × Heap := Type'.u64 h

/-- Accessor `Type::isize` for the 64-bit target configuration: an alias of
`Type::i64`. -/
def Type'.isize (h : Heap) : Nat × Heap := Type'.i64 h

/-- Accessor `Type::f32`. -/
def Type'.f32 (h : Heap) : Nat × Heap := (ffi_type_float, h)

/-- Accessor `Type::f64`. -/
def Type'.f64 (h : Heap) : Nat × Heap := (ffi_type_double, h)

/-- Accessor `Type::pointer`. -/
def Type'.pointer (h : Heap) : Nat × Heap := (ffi_type_pointer, h)

/-- Accessor `Type::longdouble`. -/
def Type'.longdouble (h : Heap) : Nat × Heap := (ffi_type_longdouble, h)

/-- Accessor `Type::c32`. -/
def Type'.c32 (h : Heap) : Nat × Heap := (ffi_type_complex_float, h)

/-- Accessor `Type::c64`. -/
def Type'.c64 (h : Heap) : Nat × Heap := (ffi_type_complex_double, h)

/-- Accessor `Type::complex_longdouble`. -/
def Type'.complex_longdouble (h : Heap) : Nat × Heap :=
  (ffi_type_complex_longdouble, h)

/-- Translation of `Type::structure` (named with a prime because
`structure` is a Lean keyword): build the element array from the consumed
member handles and wrap it in a fresh struct descriptor. -/
def Type'.structure' (fields : List Nat) (h : Heap) : Nat × Heap :=
  ffi_type_struct_create fields h

/-- Translation of `Type::structure_from_array`: the function reads
`*fields.0` into a fresh struct descriptor, and then — because the
consumed `TypeArray` argument is neither returned nor `mem::forget`ten —
Rust drops `fields` at the end of the call, running
`impl Drop for TypeArray`, i.e. `ffi_type_array_destroy` on the very
array the new descriptor now points to. -/
def Type'.structure_from_array (fuel : Nat) (fields : Nat) (h : Heap) :
    Nat × Heap :=
  let res := ffi_type_struct_create_raw fields h
  (res.1, ffi_type_array_destroy fuel fields res.2)

/-- Translation of `impl Clone for Type`. -/
def Type'.clone (fuel : Nat) (a : Nat) (h : Heap) : Nat × Heap :=
  ffi_type_clone fuel a h

/-- Translation of `impl Drop for Type`. -/
def Type'.drop (fuel : Nat) (a : Nat) (h : Heap) : Heap :=
  ffi_type_destroy fuel a h

/-- Translation of `TypeArray::new`: the consumed member handles are
absorbed (`mem::forget`) into the fresh array. -/
def TypeArray.new (elements : List Nat) (h : Heap) : Nat × Heap :=
  ffi_type_array_create elements h

/-- Translation of `TypeArray::len`: recomputed by scanning on every call;
no length is stored in the handle. -/
def TypeArray.len (h : Heap) (a : Nat) : Nat :=
  ffi_type_array_len h a

/-- Translation of `impl Clone for TypeArray`. -/
def TypeArray.clone (fuel : Nat) (a : Nat) (h : Heap) : Nat × Heap :=
  ffi_type_array_clone fuel a h

/-- Translation of `impl Drop for TypeArray`. -/
def TypeArray.drop (fuel : Nat) (a : Nat) (h : Heap) : Heap :=
  ffi_type_array_destroy fuel a h

/-- Layout tree of a descriptor as it sits in a heap: a scalar leaf records
the address of a borrowed static descriptor; a struct node records the
address of its owned descriptor block, the address of its owned backing
array block, and the layouts of its element descriptors. -/
inductive TyL where
  | scalar : Nat → TyL
  | struct : Nat → Nat → List TyL → TyL

/-- Root descriptor address of a layout tree: the address a `Type` handle
for this tree holds. -/
def rootOf : TyL → Nat
  | .scalar a => a
  | .struct da _ _ => da

/-- Root addresses of a list of element layouts: the non-null slots of the
backing array. -/
def rootsOf (ts : List TyL) : List Nat :=
  ts.map rootOf

mutual

/-- Addresses of the heap blocks owned by a layout tree: every struct
descriptor block and every backing array block, transitively.  Borrowed
scalar leaves own nothing. -/
def ownedAddrs : TyL → List Nat
  | .scalar _ => []
  | .struct da aa ts => da :: aa :: ownedAddrsL ts

/-- Owned addresses of a list of element layouts. -/
def ownedAddrsL : List TyL → List Nat
  | [] => []
  | t :: rest => ownedAddrs t ++ ownedAddrsL rest

end

mutual

/-- The exact chronological order in which `ffi_type_destroy` frees the
owned blocks of a layout tree: depth-first through the elements, then the
backing array, then the struct descriptor itself. -/
def destroyOrder : TyL → List Nat
  | .scalar _ => []
  | .struct da aa ts => destroyOrderL ts ++ [aa, da]

/-- Destroy order of a list of element layouts, left to right. -/
def destroyOrderL : List TyL → List Nat
  | [] => []
  | t :: rest => destroyOrder t ++ destroyOrderL rest

end

mutual

/-- Fuel bound for the recursive walks over a layout tree: any fuel of at
least `szT t` lets `ffi_type_destroy` / `ffi_type_clone` finish the whole
tree. -/
def szT : TyL → Nat
  | .scalar _ => 1
  | .struct _ _ ts => szL ts + 2

/-- Fuel bound for the loop over a list of element layouts. -/
def szL : List TyL → Nat
  | [] => 1
  | t :: rest => szT t + szL rest + 1

end

mutual

/-- Height of a layout tree, used to build the custom induction
principle. -/
def hgtT : TyL → Nat
  | .scalar _ => 0
  | .struct _ _ ts => hgtL ts + 1

/-- Height of a list of layout trees. -/
def hgtL : List TyL → Nat
  | [] => 0
  | t :: rest => max (hgtT t) (hgtL rest)

end

/-- Erased shape of a layout tree: the tree structure together with the
static addresses of the scalar leaves, but with the owned block addresses
forgotten.  Cloning preserves the shape while refreshing every owned
address. -/
inductive Shape where
  | scalar : Nat → Shape
  | struct : List Shape → Shape

mutual

/-- Shape of a layout tree. -/
def shapeOf : TyL → Shape
  | .scalar a => Shape.scalar a
  | .struct _ _ ts => Shape.struct (shapeOfL ts)

/-- Shapes of a list of layout trees. -/
def shapeOfL : List TyL → List Shape
  | [] => []
  | t :: rest => shapeOf t :: shapeOfL rest

end

mutual

/-- Does the layout tree `t` faithfully describe live blocks of heap `h`?
A scalar leaf must be one of the process statics; a struct node must have
its descriptor block live with a `STRUCT` tag and its `elements` pointing
at the backing array block, whose slots are exactly the element roots
followed by the null sentinel (`size` and `alignment` are deliberately
unconstrained: external preparation may have populated them). -/
def repsB (h : Heap) : TyL → Bool
  | .scalar a => (staticDesc a).isSome
  | .struct da aa ts =>
    match alookup h.descs da with
    | some d =>
      decide (d.type_ = type_tag.STRUCT) && decide (d.elements = aa) &&
      decide (alookup h.arrs aa = some ((rootsOf ts).map some ++ [some 0])) &&
      repsL h ts
    | none => false

/-- Pointwise representation of a list of element layouts. -/
def repsL (h : Heap) : List TyL → Bool
  | [] => true
  | t :: rest => repsB h t && repsL h rest

end

/-- A layout tree that is represented in the heap and whose owned blocks
are pairwise distinct — the exclusive-ownership discipline of the
source. -/
def goodTree (h : Heap) (t : TyL) : Prop :=
  repsB h t = true ∧ (ownedAddrs t).Nodup

instance (h : Heap) (t : TyL) : Decidable (goodTree h t) := by
  unfold goodTree
  infer_instance

/-- Well-formed heap: allocation addresses start at `heapBase` (above all
statics) and stay below the fresh-address counter, and no two live blocks
share an address. -/
def Wf (h : Heap) : Prop :=
  heapBase ≤ h.next ∧
  (∀ p ∈ h.descs, heapBase ≤ p.1 ∧ p.1 < h.next) ∧
  (∀ p ∈ h.arrs, heapBase ≤ p.1 ∧ p.1 < h.next) ∧
  (h.descs.map Prod.fst ++ h.arrs.map Prod.fst).Nodup

instance (h : Heap) : Decidable (Wf h) := by
  unfold Wf
  infer_instance

/-- The heap left behind by destroying a represented tree `t`: every owned
block is gone, the owned addresses are appended to the free trace in
depth-first order, and nothing else changes. -/
def destroyedHeap (t : TyL) (h : Heap) : Heap :=
  { descs := removeKeys (ownedAddrs t) h.descs,
    arrs := removeKeys (ownedAddrs t) h.arrs,
    next := h.next,
    frees := h.frees ++ destroyOrder t }

/-- Relation between an original tree `t` in heap `h` and the result
`(t', h')` of cloning it: same shape (so scalar leaves are shared
unchanged), the clone fully represented, its owned blocks fresh (allocated
at or above the old fresh-address counter) and pairwise distinct, all old
blocks untouched, no `free` performed, and every clone of a struct node
carrying a freshly zeroed `size` and `alignment`. -/
def CloneOk (h h' : Heap) (t t' : TyL) : Prop :=
  shapeOf t' = shapeOf t ∧
  repsB h' t' = true ∧
  (∀ a ∈ ownedAddrs t', h.next ≤ a ∧ a < h'.next) ∧
  (ownedAddrs t').Nodup ∧
  (∀ a, a < h.next → alookup h'.descs a = alookup h.descs a) ∧
  (∀ a, a < h.next → alookup h'.arrs a = alookup h.arrs a) ∧
  h'.frees = h.frees ∧
  h.next ≤ h'.next ∧
  (Wf h → Wf h') ∧
  (∀ da' aa' ts', t' = TyL.struct da' aa' ts' →
    alookup h'.descs da' = some ⟨0, 0, type_tag.STRUCT, aa'⟩)

/-- Invariant of the slot-copying loop of `ffi_type_array_clone`: `ts` are
the layouts still to clone, `ts'` their clones, `nw` the address of the
target block whose already-written prefix is `pre`. -/
def CloneLoopOk (h h' : Heap) (ts ts' : List TyL) (nw : Nat)
    (pre : List (Option Nat)) : Prop :=
  shapeOfL ts' = shapeOfL ts ∧
  repsL h' ts' = true ∧
  alookup h'.arrs nw = some (pre ++ (rootsOf ts').map some ++ [some 0]) ∧
  (∀ a ∈ ownedAddrsL ts', h.next ≤ a ∧ a < h'.next) ∧
  (ownedAddrsL ts').Nodup ∧
  (∀ a, a < h.next → alookup h'.descs a = alookup h.descs a) ∧
  (∀ a, a < h.next → a ≠ nw → alookup h'.arrs a = alookup h.arrs a) ∧
  h'.frees = h.frees ∧ h.next ≤ h'.next ∧ (Wf h → Wf h')

/-- Relation between an original element list `ts` in heap `h` and the
result of `ffi_type_array_clone`: the fresh backing block lands at the old
`h.next` (`na`), all cloned subtree blocks are strictly newer, and nothing
old is disturbed. -/
def CloneArrOk (h h' : Heap) (ts ts' : List TyL) (na : Nat) : Prop :=
  shapeOfL ts' = shapeOfL ts ∧
  repsL h' ts' = true ∧
  alookup h'.arrs na = some ((rootsOf ts').map some ++ [some 0]) ∧
  (∀ a ∈ ownedAddrsL ts', h.next + 1 ≤ a ∧ a < h'.next) ∧
  (ownedAddrsL ts').Nodup ∧
  (∀ a, a < h.next → alookup h'.descs a = alookup h.descs a) ∧
  (∀ a, a < h.next → alookup h'.arrs a = alookup h.arrs a) ∧
  h'.frees = h.frees ∧ h.next + 1 ≤ h'.next ∧ (Wf h → Wf h')

/-- An empty well-formed heap, used as the starting state of the concrete
executions below. -/
def hw0 : Heap := ⟨[], [], heapBase, []⟩

/-- Heap after `Type::structure(vec![Type::i64(), Type::i64(),
Type::u64()])` starting from the empty heap: the backing array lands at
address 32, the struct descriptor at 33. -/
def hw2 : Heap :=
  (Type'.structure' [ffi_type_sint64, ffi_type_sint64, ffi_type_uint64] hw0).2

/-- Layout of the structure built in `hw2`. -/
def tw2 : TyL :=
  TyL.struct 33 32
    [TyL.scalar ffi_type_sint64, TyL.scalar ffi_type_sint64,
     TyL.scalar ffi_type_uint64]

/-- A heap holding one struct descriptor (at 32, over the one-element array
at 33) whose `size` and `alignment` have been externally populated to the
nonzero values 16 and 8 — the situation claim C9 singles out. -/
def hw9 : Heap :=
  ⟨[(32, ⟨16, 8, type_tag.STRUCT, 33⟩)],
   [(33, [some ffi_type_uint64, some 0])], 34, []⟩

/-- Layout of the populated structure sitting in `hw9`. -/
def tw9 : TyL := TyL.struct 32 33 [TyL.scalar ffi_type_uint64]

/-- Execution of the spec scenario for claim C1, step 1:
`TypeArray::new(vec![Type::u64()])` from the empty heap.  The backing
array lands at address 32. -/
def c1Arr : Nat × Heap := TypeArray.new [ffi_type_uint64] hw0

/-- Step 2: `Type::structure_from_array` absorbs the array — and the
consumed handle's drop also destroys it. -/
def c1Struct : Nat × Heap :=
  Type'.structure_from_array 10 c1Arr.1 c1Arr.2

/-- Step 3: the structure `Type` handle is dropped. -/
def c1Final : Heap := Type'.drop 10 c1Struct.1 c1Struct.2

theorem alookup_mem {α : Type} : ∀ {l : List (Nat × α)} {a : Nat} {v : α},
    alookup l a = some v → (a, v) ∈ l := by
  intro l
  induction l with
  | nil => intro a v h; simp [alookup] at h
  | cons p rest ih =>
    intro a v h
    unfold alookup at h
    split at h
    · rename_i heq
      injection h with h
      subst h; subst heq
      exact List.mem_cons_self _ _
    · exact List.mem_cons_of_mem _ (ih h)

theorem alookup_eq_none {α : Type} : ∀ {l : List (Nat × α)} {a : Nat},
    (∀ p ∈ l, p.1 ≠ a) → alookup l a = none := by
  intro l
  induction l with
  | nil => intro a _; rfl
  | cons p rest ih =>
    intro a hall
    unfold alookup
    rw [if_neg (hall p (List.mem_cons_self _ _))]
    exact ih fun q hq => hall q (List.mem_cons_of_mem _ hq)

theorem alookup_updateA_ne {α : Type} {a k : Nat} (hne : a ≠ k)
    (f : α → α) : ∀ l : List (Nat × α),
    alookup (updateA l k f) a = alookup l a := by
  intro l
  induction l with
  | nil => rfl
  | cons p rest ih =>
    by_cases hp : p.1 = k
    · simp only [updateA, if_pos hp, alookup]
      rw [if_neg (by omega : ¬ p.1 = a), if_neg (by omega : ¬ p.1 = a)]
      exact ih
    · simp only [updateA, if_neg hp, alookup]
      by_cases hpa : p.1 = a
      · rw [if_pos hpa, if_pos hpa]
      · rw [if_neg hpa, if_neg hpa]
        exact ih

theorem alookup_updateA_self {α : Type} (k : Nat) (f : α → α) :
    ∀ l : List (Nat × α),
    alookup (updateA l k f) k = Option.map f (alookup l k) := by
  intro l
  induction l with
  | nil => rfl
  | cons p rest ih =>
    by_cases hp : p.1 = k
    · simp only [updateA, if_pos hp, alookup]
      rfl
    · simp only [updateA, if_neg hp, alookup]
      exact ih

theorem alookup_removeKeys_not_mem {α : Type} {a : Nat} {ks : List Nat}
    (hna : ¬ a ∈ ks) : ∀ l : List (Nat × α),
    alookup (removeKeys ks l) a = alookup l a := by
  intro l
  induction l with
  | nil => rfl
  | cons p rest ih =>
    simp only [removeKeys, alookup]
    by_cases hp : p.1 ∈ ks
    · rw [if_pos hp, if_neg (by intro hpe; exact hna (hpe ▸ hp))]
      exact ih
    · rw [if_neg hp]
      simp only [alookup]
      by_cases hpa : p.1 = a
      · rw [if_pos hpa, if_pos hpa]
      · rw [if_neg hpa, if_neg hpa]
        exact ih

theorem mem_of_mem_removeKeys {α : Type} {p : Nat × α} {ks : List Nat} :
    ∀ {l : List (Nat × α)}, p ∈ removeKeys ks l → p ∈ l ∧ ¬ p.1 ∈ ks := by
  intro l
  induction l with
  | nil => intro h; simp [removeKeys] at h
  | cons q rest ih =>
    intro h
    simp only [removeKeys] at h
    by_cases hq : q.1 ∈ ks
    · rw [if_pos hq] at h
      obtain ⟨h1, h2⟩ := ih h
      exact ⟨List.mem_cons_of_mem _ h1, h2⟩
    · rw [if_neg hq] at h
      rcases List.mem_cons.mp h with h | h
      · exact ⟨h ▸ List.mem_cons_self _ _, h ▸ hq⟩
      · obtain ⟨h1, h2⟩ := ih h
        exact ⟨List.mem_cons_of_mem _ h1, h2⟩

theorem alookup_removeKeys_mem {α : Type} {a : Nat} {ks : List Nat}
    (ha : a ∈ ks) (l : List (Nat × α)) :
    alookup (removeKeys ks l) a = none := by
  apply alookup_eq_none
  intro p hp hpe
  exact (mem_of_mem_removeKeys hp).2 (hpe ▸ ha)

theorem removeKeys_nil {α : Type} : ∀ l : List (Nat × α),
    removeKeys [] l = l := by
  intro l
  induction l with
  | nil => rfl
  | cons p rest ih => simpa [removeKeys] using ih

theorem removeKeys_removeKeys {α : Type} (ks ks' : List Nat) :
    ∀ l : List (Nat × α),
    removeKeys ks (removeKeys ks' l) = removeKeys (ks' ++ ks) l := by
  intro l
  induction l with
  | nil => rfl
  | cons p rest ih =>
    simp only [removeKeys, List.mem_append]
    by_cases h2 : p.1 ∈ ks'
    · rw [if_pos h2, if_pos (Or.inl h2)]
      exact ih
    · rw [if_neg h2]
      by_cases h1 : p.1 ∈ ks
      · simp only [removeKeys]
        rw [if_pos h1, if_pos (Or.inr h1)]
        exact ih
      · simp only [removeKeys]
        rw [if_neg h1, if_neg (by tauto)]
        rw [ih]

theorem removeKeys_congr {α : Type} {ks ks' : List Nat}
    (hiff : ∀ a, a ∈ ks ↔ a ∈ ks') : ∀ l : List (Nat × α),
    removeKeys ks l = removeKeys ks' l := by
  intro l
  induction l with
  | nil => rfl
  | cons p rest ih =>
    simp only [removeKeys]
    by_cases h1 : p.1 ∈ ks
    · rw [if_pos h1, if_pos ((hiff p.1).mp h1)]
      exact ih
    · rw [if_neg h1, if_neg (fun h => h1 ((hiff p.1).mpr h))]
      rw [ih]

theorem keys_removeKeys_sublist {α : Type} (ks : List Nat) :
    ∀ l : List (Nat × α),
    ((removeKeys ks l).map Prod.fst).Sublist (l.map Prod.fst) := by
  intro l
  induction l with
  | nil => exact List.Sublist.refl _
  | cons p rest ih =>
    simp only [removeKeys]
    by_cases hp : p.1 ∈ ks
    · rw [if_pos hp]
      exact List.Sublist.cons _ ih
    · rw [if_neg hp]
      exact List.Sublist.cons₂ _ ih

theorem keys_updateA {α : Type} (k : Nat) (f : α → α) :
    ∀ l : List (Nat × α),
    (updateA l k f).map Prod.fst = l.map Prod.fst := by
  intro l
  induction l with
  | nil => rfl
  | cons p rest ih =>
    simp only [updateA, List.map_cons]
    by_cases hp : p.1 = k
    · rw [if_pos hp]
      simpa using ih
    · rw [if_neg hp]
      simpa using ih

theorem statics_bound :
    ∀ p ∈ statics, 1 ≤ p.1 ∧ p.1 < heapBase ∧ p.2.type_ ≠ type_tag.STRUCT := by
  decide

theorem staticDesc_facts {a : Nat} {d : FfiType}
    (h : staticDesc a = some d) :
    1 ≤ a ∧ a < heapBase ∧ d.type_ ≠ type_tag.STRUCT :=
  statics_bound (a, d) (alookup_mem h)

theorem staticDesc_eq_none {a : Nat} (ha : heapBase ≤ a) :
    staticDesc a = none := by
  apply alookup_eq_none
  intro p hp
  have := (statics_bound p hp).2.1
  omega

theorem readDesc_of_ge {h : Heap} {a : Nat} (ha : heapBase ≤ a) :
    readDesc h a = alookup h.descs a := by
  unfold readDesc
  rw [staticDesc_eq_none ha]

theorem get?_append_len {α : Type} (x : α) (l2 : List α) :
    ∀ l1 : List α, (l1 ++ x :: l2).get? l1.length = some x := by
  intro l1
  induction l1 with
  | nil => rfl
  | cons y rest ih => simpa using ih

theorem set_append_len {α : Type} (x v : α) (l2 : List α) :
    ∀ l1 : List α, (l1 ++ x :: l2).set l1.length v = l1 ++ v :: l2 := by
  intro l1
  induction l1 with
  | nil => rfl
  | cons y rest ih => simp

theorem set_replicate_last (len : Nat) :
    (List.replicate (len + 1) (none : Option Nat)).set len (some 0) =
      List.replicate len none ++ [some 0] := by
  have h := set_append_len (none : Option Nat) (some 0) []
    (List.replicate len none)
  have h2 : (List.replicate len (none : Option Nat)).length = len := by simp
  rw [h2] at h
  rw [← List.replicate_succ'] at h
  exact h

theorem scanLen_roots : ∀ roots : List Nat, (∀ r ∈ roots, r ≠ 0) →
    scanLen (roots.map some ++ [some 0]) = roots.length := by
  intro roots
  induction roots with
  | nil => intro _; rfl
  | cons r rest ih =>
    intro hall
    have hr : r ≠ 0 := hall r (List.mem_cons_self _ _)
    obtain ⟨m, rfl⟩ : ∃ m, r = m + 1 := ⟨r - 1, by omega⟩
    simp only [List.map_cons, List.cons_append, scanLen, List.length_cons,
      List.append_eq]
    rw [ih fun x hx => hall x (List.mem_cons_of_mem _ hx)]

theorem Wf_removeKeys {h : Heap} (hWf : Wf h) (ks fr : List Nat) :
    Wf ⟨removeKeys ks h.descs, removeKeys ks h.arrs, h.next, fr⟩ := by
  obtain ⟨h1, h2, h3, h4⟩ := hWf
  refine ⟨h1, ?_, ?_, ?_⟩
  · intro p hp; exact h2 p (mem_of_mem_removeKeys hp).1
  · intro p hp; exact h3 p (mem_of_mem_removeKeys hp).1
  · exact List.Sublist.nodup
      (List.Sublist.append (keys_removeKeys_sublist ks h.descs)
        (keys_removeKeys_sublist ks h.arrs)) h4

theorem Wf_writeSlot {h : Heap} (hWf : Wf h) (a i v : Nat) :
    Wf (writeSlot h a i v) := by
  obtain ⟨h1, h2, h3, h4⟩ := hWf
  unfold Wf writeSlot
  dsimp only
  refine ⟨h1, h2, ?_, ?_⟩
  · intro p hp
    have hk : p.1 ∈ (updateA h.arrs a
        fun block => block.set i (some v)).map Prod.fst :=
      List.mem_map_of_mem _ hp
    rw [keys_updateA] at hk
    obtain ⟨q, hq, hqe⟩ := List.mem_map.mp hk
    have := h3 q hq
    omega
  · rw [keys_updateA]
    exact h4

theorem Wf_arrAlloc {h : Heap} (hWf : Wf h) (b : List (Option Nat)) :
    Wf ⟨h.descs, (h.next, b) :: h.arrs, h.next + 1, h.frees⟩ := by
  obtain ⟨h1, h2, h3, h4⟩ := hWf
  unfold Wf
  dsimp only
  refine ⟨by omega, ?_, ?_, ?_⟩
  · intro p hp
    have := h2 p hp
    omega
  · intro p hp
    rcases List.mem_cons.mp hp with rfl | hp
    · dsimp only
      omega
    · have := h3 p hp
      omega
  · show (h.descs.map Prod.fst ++ h.next :: h.arrs.map Prod.fst).Nodup
    rw [List.nodup_middle]
    refine List.nodup_cons.mpr ⟨?_, h4⟩
    intro hmem
    rcases List.mem_append.mp hmem with hmem | hmem
    · obtain ⟨q, hq, hqe⟩ := List.mem_map.mp hmem
      have := h2 q hq
      omega
    · obtain ⟨q, hq, hqe⟩ := List.mem_map.mp hmem
      have := h3 q hq
      omega

theorem Wf_descAlloc {h : Heap} (hWf : Wf h) (d : FfiType) :
    Wf ⟨(h.next, d) :: h.descs, h.arrs, h.next + 1, h.frees⟩ := by
  obtain ⟨h1, h2, h3, h4⟩ := hWf
  unfold Wf
  dsimp only
  refine ⟨by omega, ?_, ?_, ?_⟩
  · intro p hp
    rcases List.mem_cons.mp hp with rfl | hp
    · dsimp only
      omega
    · have := h2 p hp
      omega
  · intro p hp
    have := h3 p hp
    omega
  · show ((h.next :: h.descs.map Prod.fst) ++ h.arrs.map Prod.fst).Nodup
    rw [List.cons_append]
    refine List.nodup_cons.mpr ⟨?_, h4⟩
    intro hmem
    rcases List.mem_append.mp hmem with hmem | hmem
    · obtain ⟨q, hq, hqe⟩ := List.mem_map.mp hmem
      have := h2 q hq
      omega
    · obtain ⟨q, hq, hqe⟩ := List.mem_map.mp hmem
      have := h3 q hq
      omega

theorem hgtT_le_of_mem : ∀ {ts : List TyL} {t : TyL}, t ∈ ts →
    hgtT t ≤ hgtL ts := by
  intro ts
  induction ts with
  | nil => intro t h; cases h
  | cons s rest ih =>
    intro t h
    rcases List.mem_cons.mp h with rfl | h
    · exact le_max_left _ _
    · exact le_trans (ih h) (le_max_right _ _)

theorem TyL.ind (motive : TyL → Prop)
    (hs : ∀ a, motive (TyL.scalar a))
    (hst : ∀ da aa ts, (∀ t ∈ ts, motive t) →
      motive (TyL.struct da aa ts)) :
    ∀ t, motive t := by
  have key : ∀ n t, hgtT t ≤ n → motive t := by
    intro n
    induction n with
    | zero =>
      intro t ht
      cases t with
      | scalar a => exact hs a
      | struct da aa ts =>
        exact absurd ht (by simp only [hgtT]; omega)
    | succ n ih =>
      intro t ht
      cases t with
      | scalar a => exact hs a
      | struct da aa ts =>
        refine hst da aa ts fun t' ht' => ih t' ?_
        have h1 := hgtT_le_of_mem ht'
        simp only [hgtT] at ht
        omega
  exact fun t => key (hgtT t) t le_rfl

theorem repsB_struct_iff (h : Heap) (da aa : Nat) (ts : List TyL) :
    repsB h (TyL.struct da aa ts) = true ↔
    ∃ d, alookup h.descs da = some d ∧ d.type_ = type_tag.STRUCT ∧
      d.elements = aa ∧
      alookup h.arrs aa = some ((rootsOf ts).map some ++ [some 0]) ∧
      repsL h ts = true := by
  constructor
  · intro hrep
    simp only [repsB] at hrep
    rcases hda : alookup h.descs da with _ | d
    · rw [hda] at hrep
      cases hrep
    · rw [hda] at hrep
      simp only [Bool.and_eq_true, decide_eq_true_eq] at hrep
      exact ⟨d, rfl, hrep.1.1.1, hrep.1.1.2, hrep.1.2, hrep.2⟩
  · rintro ⟨d, hda, h1, h2, h3, h4⟩
    simp only [repsB, hda]
    simp [h1, h2, h3, h4]

theorem repsL_cons_iff (h : Heap) (t : TyL) (ts : List TyL) :
    repsL h (t :: ts) = true ↔ repsB h t = true ∧ repsL h ts = true := by
  simp [repsL]

theorem repsL_mem {h : Heap} : ∀ {ts : List TyL},
    repsL h ts = true → ∀ {t : TyL}, t ∈ ts → repsB h t = true := by
  intro ts
  induction ts with
  | nil => intro _ t ht; cases ht
  | cons s rest ih =>
    intro hrep t ht
    obtain ⟨hh, htail⟩ := (repsL_cons_iff h s rest).mp hrep
    rcases List.mem_cons.mp ht with rfl | ht
    · exact hh
    · exact ih htail ht

theorem mem_ownedAddrsL {a : Nat} : ∀ {ts : List TyL} {t : TyL},
    t ∈ ts → a ∈ ownedAddrs t → a ∈ ownedAddrsL ts := by
  intro ts
  induction ts with
  | nil => intro t ht; cases ht
  | cons s rest ih =>
    intro t ht ha
    simp only [ownedAddrsL, List.mem_append]
    rcases List.mem_cons.mp ht with rfl | ht
    · exact Or.inl ha
    · exact Or.inr (ih ht ha)

theorem mem_ownedAddrsL_inv {a : Nat} : ∀ {ts : List TyL},
    a ∈ ownedAddrsL ts → ∃ t ∈ ts, a ∈ ownedAddrs t := by
  intro ts
  induction ts with
  | nil => intro h; cases h
  | cons s rest ih =>
    intro ha
    simp only [ownedAddrsL, List.mem_append] at ha
    rcases ha with ha | ha
    · exact ⟨s, List.mem_cons_self _ _, ha⟩
    · obtain ⟨t, ht, ha⟩ := ih ha
      exact ⟨t, List.mem_cons_of_mem _ ht, ha⟩

theorem repsL_congr_aux (h h' : Heap) : ∀ ts : List TyL,
    (∀ t ∈ ts, ∀ hh hh' : Heap,
      (∀ a ∈ ownedAddrs t, alookup hh'.descs a = alookup hh.descs a) →
      (∀ a ∈ ownedAddrs t, alookup hh'.arrs a = alookup hh.arrs a) →
      repsB hh' t = repsB hh t) →
    (∀ a ∈ ownedAddrsL ts, alookup h'.descs a = alookup h.descs a) →
    (∀ a ∈ ownedAddrsL ts, alookup h'.arrs a = alookup h.arrs a) →
    repsL h' ts = repsL h ts := by
  intro ts
  induction ts with
  | nil => intro _ _ _; rfl
  | cons u urest ih =>
    intro hmem hd ha
    have hmemL : ∀ a ∈ ownedAddrs u, a ∈ ownedAddrsL (u :: urest) := by
      intro a ha'
      simp only [ownedAddrsL, List.mem_append]
      exact Or.inl ha'
    have hmemR : ∀ a ∈ ownedAddrsL urest, a ∈ ownedAddrsL (u :: urest) := by
      intro a ha'
      simp only [ownedAddrsL, List.mem_append]
      exact Or.inr ha'
    simp only [repsL]
    rw [hmem u (List.mem_cons_self _ _) h h'
        (fun a ha' => hd a (hmemL a ha'))
        (fun a ha' => ha a (hmemL a ha')),
      ih (fun t ht => hmem t (List.mem_cons_of_mem _ ht))
        (fun a ha' => hd a (hmemR a ha'))
        (fun a ha' => ha a (hmemR a ha'))]

theorem repsB_congr : ∀ (t : TyL) (h h' : Heap),
    (∀ a ∈ ownedAddrs t, alookup h'.descs a = alookup h.descs a) →
    (∀ a ∈ ownedAddrs t, alookup h'.arrs a = alookup h.arrs a) →
    repsB h' t = repsB h t := by
  intro t
  induction t using TyL.ind with
  | hs a => intro h h' _ _; rfl
  | hst da aa ts ih =>
    intro h h' hd ha
    have hmda : da ∈ ownedAddrs (TyL.struct da aa ts) :=
      List.mem_cons_self _ _
    have hmaa : aa ∈ ownedAddrs (TyL.struct da aa ts) :=
      List.mem_cons_of_mem _ (List.mem_cons_self _ _)
    have hsub : ∀ a ∈ ownedAddrsL ts, a ∈ ownedAddrs (TyL.struct da aa ts) :=
      fun a ha' => List.mem_cons_of_mem _ (List.mem_cons_of_mem _ ha')
    have hl : repsL h' ts = repsL h ts :=
      repsL_congr_aux h h' ts (fun t' ht' => ih t' ht')
        (fun a ha' => hd a (hsub a ha'))
        (fun a ha' => ha a (hsub a ha'))
    simp only [repsB]
    rw [hd da hmda, ha aa hmaa, hl]

theorem repsL_congr (h h' : Heap) (ts : List TyL)
    (hd : ∀ a ∈ ownedAddrsL ts, alookup h'.descs a = alookup h.descs a)
    (ha : ∀ a ∈ ownedAddrsL ts, alookup h'.arrs a = alookup h.arrs a) :
    repsL h' ts = repsL h ts :=
  repsL_congr_aux h h' ts (fun t _ => repsB_congr t) hd ha

theorem rootOf_bounds {t : TyL} {h : Heap} (hWf : Wf h)
    (hrep : repsB h t = true) : 1 ≤ rootOf t ∧ rootOf t < h.next := by
  cases t with
  | scalar a =>
    simp only [repsB] at hrep
    obtain ⟨d, hd⟩ := Option.isSome_iff_exists.mp hrep
    have hf := staticDesc_facts hd
    have hb := hWf.1
    simp only [rootOf]
    omega
  | struct da aa ts =>
    obtain ⟨d, hda, -⟩ := (repsB_struct_iff h da aa ts).mp hrep
    have hb := hWf.2.1 _ (alookup_mem hda)
    have : (32 : Nat) = heapBase := rfl
    simp only [rootOf]
    omega

theorem owned_bounds : ∀ (t : TyL) (h : Heap), Wf h → repsB h t = true →
    ∀ a ∈ ownedAddrs t, heapBase ≤ a ∧ a < h.next := by
  intro t
  induction t using TyL.ind with
  | hs a =>
    intro h _ _ a' ha'
    simp only [ownedAddrs] at ha'
    cases ha'
  | hst da aa ts ih =>
    intro h hWf hrep a' ha'
    obtain ⟨d, hda, -, -, haa, hts⟩ := (repsB_struct_iff h da aa ts).mp hrep
    simp only [ownedAddrs] at ha'
    rcases List.mem_cons.mp ha' with rfl | ha'
    · exact hWf.2.1 _ (alookup_mem hda)
    rcases List.mem_cons.mp ha' with rfl | ha'
    · exact hWf.2.2.1 _ (alookup_mem haa)
    · obtain ⟨t', ht', ha''⟩ := mem_ownedAddrsL_inv ha'
      exact ih t' ht' h hWf (repsL_mem hts ht') a' ha''

theorem rootsOf_ne_zero {h : Heap} {ts : List TyL} (hWf : Wf h)
    (hts : repsL h ts = true) : ∀ r ∈ rootsOf ts, r ≠ 0 := by
  intro r hr
  obtain ⟨t, ht, rfl⟩ := List.mem_map.mp hr
  have := rootOf_bounds hWf (repsL_mem hts ht)
  omega

theorem destroyOrderL_perm_aux : ∀ us : List TyL,
    (∀ t ∈ us, (destroyOrder t).Perm (ownedAddrs t)) →
    (destroyOrderL us).Perm (ownedAddrsL us) := by
  intro us
  induction us with
  | nil => intro _; exact List.Perm.refl _
  | cons u urest ih =>
    intro hmem
    simp only [destroyOrderL, ownedAddrsL]
    exact List.Perm.append (hmem u (List.mem_cons_self _ _))
      (ih fun t ht => hmem t (List.mem_cons_of_mem _ ht))

theorem destroyOrder_perm : ∀ t : TyL,
    (destroyOrder t).Perm (ownedAddrs t) := by
  intro t
  induction t using TyL.ind with
  | hs a => exact List.Perm.refl _
  | hst da aa ts ih =>
    simp only [destroyOrder, ownedAddrs]
    have hl := destroyOrderL_perm_aux ts ih
    refine List.Perm.trans (hl.append_right _) ?_
    refine List.Perm.trans List.perm_append_comm ?_
    simp only [List.cons_append, List.nil_append]
    exact List.Perm.swap _ _ _

theorem destroyOrderL_perm (ts : List TyL) :
    (destroyOrderL ts).Perm (ownedAddrsL ts) :=
  destroyOrderL_perm_aux ts fun t _ => destroyOrder_perm t

theorem szL_pos : ∀ ts : List TyL, 1 ≤ szL ts := by
  intro ts
  cases ts with
  | nil => exact le_refl _
  | cons t rest => simp only [szL]; omega

theorem szT_pos : ∀ t : TyL, 1 ≤ szT t := by
  intro t
  cases t with
  | scalar a => exact le_refl _
  | struct da aa ts => simp only [szT]; omega

theorem destroy_master : ∀ fuel : Nat,
    (∀ (t : TyL) (h : Heap), Wf h → repsB h t = true →
      (ownedAddrs t).Nodup → szT t ≤ fuel →
      ffi_type_destroy fuel (rootOf t) h = destroyedHeap t h) ∧
    (∀ (ts : List TyL) (aa : Nat) (pre : List (Option Nat)) (h : Heap),
      Wf h → repsL h ts = true → (ownedAddrsL ts).Nodup →
      ¬ aa ∈ ownedAddrsL ts →
      alookup h.arrs aa =
        some (pre ++ (rootsOf ts).map some ++ [some 0]) →
      szL ts ≤ fuel →
      destroyLoop fuel aa pre.length h =
        ⟨removeKeys (ownedAddrsL ts) h.descs,
         removeKeys (ownedAddrsL ts) h.arrs,
         h.next, h.frees ++ destroyOrderL ts⟩) ∧
    (∀ (ts : List TyL) (aa : Nat) (h : Heap),
      Wf h → repsL h ts = true → (aa :: ownedAddrsL ts).Nodup →
      alookup h.arrs aa = some ((rootsOf ts).map some ++ [some 0]) →
      szL ts + 1 ≤ fuel →
      ffi_type_array_destroy fuel aa h =
        ⟨removeKeys (aa :: ownedAddrsL ts) h.descs,
         removeKeys (aa :: ownedAddrsL ts) h.arrs,
         h.next, h.frees ++ (destroyOrderL ts ++ [aa])⟩) := by
  intro fuel
  induction fuel with
  | zero =>
    refine ⟨?_, ?_, ?_⟩
    · intro t h _ _ _ hsz
      exact absurd hsz (by have := szT_pos t; omega)
    · intro ts aa pre h _ _ _ _ _ hsz
      exact absurd hsz (by have := szL_pos ts; omega)
    · intro ts aa h _ _ _ _ hsz
      exact absurd hsz (by have := szL_pos ts; omega)
  | succ f ih =>
    obtain ⟨ihT, ihL, ihA⟩ := ih
    refine ⟨?_, ?_, ?_⟩
    · -- ffi_type_destroy
      intro t h hWf hrep hnd hsz
      cases t with
      | scalar a =>
        simp only [repsB] at hrep
        obtain ⟨d, hd⟩ := Option.isSome_iff_exists.mp hrep
        have hread : readDesc h a = some d := by
          simp only [readDesc, hd]
        simp only [rootOf, ffi_type_destroy, hread]
        rw [if_neg (staticDesc_facts hd).2.2]
        simp only [destroyedHeap, ownedAddrs, destroyOrder, removeKeys_nil,
          List.append_nil]
      | struct da aa ts =>
        obtain ⟨d, hda, htag, helem, haa, hts⟩ :=
          (repsB_struct_iff h da aa ts).mp hrep
        have hdab := hWf.2.1 _ (alookup_mem hda)
        have hread : readDesc h da = some d := by
          rw [readDesc_of_ge hdab.1]
          exact hda
        simp only [ownedAddrs] at hnd
        have hnd2 : (aa :: ownedAddrsL ts).Nodup :=
          (List.nodup_cons.mp hnd).2
        simp only [rootOf, ffi_type_destroy, hread]
        rw [if_pos htag, helem]
        have hsz2 : szL ts + 1 ≤ f := by
          simp only [szT] at hsz
          omega
        rw [ihA ts aa h hWf hts hnd2 haa hsz2]
        simp only [free, destroyedHeap, ownedAddrs, destroyOrder,
          Heap.mk.injEq]
        refine ⟨?_, ?_, trivial, by simp [List.append_assoc]⟩ <;>
        · rw [removeKeys_removeKeys]
          apply removeKeys_congr
          intro x
          simp only [List.mem_append, List.mem_cons, List.mem_singleton,
            List.not_mem_nil, or_false]
          tauto
    · -- destroyLoop
      intro ts aa pre h hWf hts hnd hnaa hblock hsz
      cases ts with
      | nil =>
        have hread : readSlot h aa pre.length = some 0 := by
          simp only [readSlot, hblock, rootsOf, List.map_nil,
            List.nil_append, List.append_nil]
          rw [show pre ++ [some 0] = pre ++ some 0 :: [] from rfl,
            get?_append_len]
        simp only [destroyLoop, hread]
        simp only [ownedAddrsL, destroyOrderL, removeKeys_nil,
          List.append_nil]
      | cons t rest =>
        have hrepT : repsB h t = true := repsL_mem hts (List.mem_cons_self _ _)
        have hrepR : repsL h rest = true := by
          obtain ⟨-, hr⟩ := (repsL_cons_iff h t rest).mp hts
          exact hr
        have hrb := rootOf_bounds hWf hrepT
        obtain ⟨v, hv⟩ : ∃ v, rootOf t = v + 1 := ⟨rootOf t - 1, by omega⟩
        have hblock2 : alookup h.arrs aa =
            some (pre ++ some (rootOf t) ::
              ((rootsOf rest).map some ++ [some 0])) := by
          rw [hblock]
          simp [rootsOf, List.append_assoc]
        have hread : readSlot h aa pre.length = some (rootOf t) := by
          simp only [readSlot, hblock2, get?_append_len]
        rw [hv] at hread
        simp only [destroyLoop, hread]
        simp only [ownedAddrsL] at hnd hnaa
        have hndT : (ownedAddrs t).Nodup := (List.nodup_append.mp hnd).1
        have hndR : (ownedAddrsL rest).Nodup := (List.nodup_append.mp hnd).2.1
        have hdisj := (List.nodup_append.mp hnd).2.2
        have hnaaT : ¬ aa ∈ ownedAddrs t := fun hx =>
          hnaa (List.mem_append.mpr (Or.inl hx))
        have hnaaR : ¬ aa ∈ ownedAddrsL rest := fun hx =>
          hnaa (List.mem_append.mpr (Or.inr hx))
        have hszT2 : szT t ≤ f := by
          simp only [szL] at hsz
          have := szL_pos rest
          omega
        have hszR : szL rest ≤ f := by
          simp only [szL] at hsz
          have := szT_pos t
          omega
        have hdes := ihT t h hWf hrepT hndT hszT2
        rw [← hv, hdes]
        have hWf2 : Wf (destroyedHeap t h) := Wf_removeKeys hWf _ _
        have hlookD : ∀ a ∈ ownedAddrsL rest,
            alookup (destroyedHeap t h).descs a = alookup h.descs a := by
          intro a ha
          exact alookup_removeKeys_not_mem
            (fun hx => (List.disjoint_left.mp hdisj hx) ha) _
        have hlookA : ∀ a ∈ ownedAddrsL rest,
            alookup (destroyedHeap t h).arrs a = alookup h.arrs a := by
          intro a ha
          exact alookup_removeKeys_not_mem
            (fun hx => (List.disjoint_left.mp hdisj hx) ha) _
        have hrepR2 : repsL (destroyedHeap t h) rest = true := by
          rw [repsL_congr h (destroyedHeap t h) rest hlookD hlookA]
          exact hrepR
        have hblock3 : alookup (destroyedHeap t h).arrs aa =
            some ((pre ++ [some (rootOf t)]) ++
              (rootsOf rest).map some ++ [some 0]) := by
          rw [show (destroyedHeap t h).arrs =
              removeKeys (ownedAddrs t) h.arrs from rfl]
          rw [alookup_removeKeys_not_mem hnaaT, hblock2]
          simp [List.append_assoc]
        have hlen : (pre ++ [some (rootOf t)]).length = pre.length + 1 := by
          simp
        have := ihL rest aa (pre ++ [some (rootOf t)]) (destroyedHeap t h)
          hWf2 hrepR2 hndR hnaaR hblock3 hszR
        rw [hlen] at this
        rw [this]
        simp only [destroyedHeap, Heap.mk.injEq]
        refine ⟨?_, ?_, trivial, ?_⟩
        · rw [removeKeys_removeKeys]
          rfl
        · rw [removeKeys_removeKeys]
          rfl
        · simp only [destroyOrderL, List.append_assoc]
    · -- ffi_type_array_destroy
      intro ts aa h hWf hts hnd hblock hsz
      have hndT : (ownedAddrsL ts).Nodup := (List.nodup_cons.mp hnd).2
      have hnaa : ¬ aa ∈ ownedAddrsL ts := (List.nodup_cons.mp hnd).1
      have hblock2 : alookup h.arrs aa =
          some (([] : List (Option Nat)) ++
            (rootsOf ts).map some ++ [some 0]) := by
        rw [hblock]
        simp
      have hszL2 : szL ts ≤ f := by omega
      have hl := ihL ts aa [] h hWf hts hndT hnaa hblock2 hszL2
      simp only [List.length_nil] at hl
      simp only [ffi_type_array_destroy]
      rw [hl]
      simp only [free, Heap.mk.injEq]
      refine ⟨?_, ?_, trivial, by simp [List.append_assoc]⟩ <;>
      · rw [removeKeys_removeKeys]
        apply removeKeys_congr
        intro x
        simp only [List.mem_append, List.mem_cons, List.mem_singleton,
          List.not_mem_nil, or_false]
        tauto

theorem owned_boundsL {h : Heap} {ts : List TyL} (hWf : Wf h)
    (hts : repsL h ts = true) :
    ∀ a ∈ ownedAddrsL ts, heapBase ≤ a ∧ a < h.next := by
  intro a ha
  obtain ⟨t, ht, ha'⟩ := mem_ownedAddrsL_inv ha
  exact owned_bounds t h hWf (repsL_mem hts ht) a ha'

theorem create_empty_spec (len : Nat) (h : Heap) :
    (ffi_type_array_create_empty len h).1 = h.next ∧
    (ffi_type_array_create_empty len h).2.descs = h.descs ∧
    (ffi_type_array_create_empty len h).2.next = h.next + 1 ∧
    (ffi_type_array_create_empty len h).2.frees = h.frees ∧
    alookup (ffi_type_array_create_empty len h).2.arrs h.next =
      some (List.replicate len none ++ [some 0]) ∧
    (∀ a, a ≠ h.next →
      alookup (ffi_type_array_create_empty len h).2.arrs a =
        alookup h.arrs a) := by
  refine ⟨rfl, rfl, rfl, rfl, ?_, ?_⟩
  · show alookup (updateA ((h.next, List.replicate (len + 1) none) ::
        h.arrs) h.next fun block => block.set len (some 0)) h.next = _
    rw [alookup_updateA_self]
    simp [alookup, set_replicate_last]
  · intro a hne
    show alookup (updateA ((h.next, List.replicate (len + 1) none) ::
        h.arrs) h.next fun block => block.set len (some 0)) a = _
    rw [alookup_updateA_ne (by omega) _ _]
    simp only [alookup]
    rw [if_neg (by omega)]

theorem Wf_create_empty {h : Heap} (hWf : Wf h) (len : Nat) :
    Wf (ffi_type_array_create_empty len h).2 :=
  Wf_writeSlot (Wf_arrAlloc hWf _) _ _ _

theorem struct_create_raw_spec (e : Nat) (h : Heap) :
    (ffi_type_struct_create_raw e h).1 = h.next ∧
    (ffi_type_struct_create_raw e h).2.arrs = h.arrs ∧
    (ffi_type_struct_create_raw e h).2.next = h.next + 1 ∧
    (ffi_type_struct_create_raw e h).2.frees = h.frees ∧
    alookup (ffi_type_struct_create_raw e h).2.descs h.next =
      some ⟨0, 0, type_tag.STRUCT, e⟩ ∧
    (∀ a, a ≠ h.next →
      alookup (ffi_type_struct_create_raw e h).2.descs a =
        alookup h.descs a) := by
  refine ⟨rfl, rfl, rfl, rfl, ?_, ?_⟩
  · show alookup ((h.next, (⟨0, 0, type_tag.STRUCT, e⟩ : FfiType)) ::
        h.descs) h.next = _
    simp [alookup]
  · intro a hne
    show alookup ((h.next, (⟨0, 0, type_tag.STRUCT, e⟩ : FfiType)) ::
        h.descs) a = _
    simp only [alookup]
    rw [if_neg (by omega)]

theorem Wf_struct_create_raw {h : Heap} (hWf : Wf h) (e : Nat) :
    Wf (ffi_type_struct_create_raw e h).2 :=
  Wf_descAlloc hWf _

theorem array_len_spec {h : Heap} {old : Nat} {ts : List TyL}
    (hWf : Wf h) (hts : repsL h ts = true)
    (hblock : alookup h.arrs old =
      some ((rootsOf ts).map some ++ [some 0])) :
    ffi_type_array_len h old = ts.length := by
  simp only [ffi_type_array_len, hblock]
  rw [scanLen_roots _ (rootsOf_ne_zero hWf hts)]
  simp [rootsOf]

theorem repsB_frame {h h' : Heap} {t : TyL}
    (ht : repsB h t = true)
    (hd : ∀ a ∈ ownedAddrs t, alookup h'.descs a = alookup h.descs a)
    (ha : ∀ a ∈ ownedAddrs t, alookup h'.arrs a = alookup h.arrs a) :
    repsB h' t = true := by
  rw [repsB_congr t h h' hd ha]
  exact ht

theorem repsL_frame {h h' : Heap} {ts : List TyL}
    (hts : repsL h ts = true)
    (hd : ∀ a ∈ ownedAddrsL ts, alookup h'.descs a = alookup h.descs a)
    (ha : ∀ a ∈ ownedAddrsL ts, alookup h'.arrs a = alookup h.arrs a) :
    repsL h' ts = true := by
  rw [repsL_congr h h' ts hd ha]
  exact hts

theorem alookup_writeSlot_ne {h : Heap} {a nw : Nat} (hne : a ≠ nw)
    (i v : Nat) :
    alookup (writeSlot h nw i v).arrs a = alookup h.arrs a :=
  alookup_updateA_ne hne _ _

theorem alookup_writeSlot_self (h : Heap) (nw i v : Nat) :
    alookup (writeSlot h nw i v).arrs nw =
      Option.map (fun block => block.set i (some v)) (alookup h.arrs nw) :=
  alookup_updateA_self _ _ _

theorem clone_master : ∀ fuel : Nat,
    (∀ (t : TyL) (h : Heap), Wf h → repsB h t = true → szT t ≤ fuel →
      ∃ t' : TyL, (ffi_type_clone fuel (rootOf t) h).1 = rootOf t' ∧
        CloneOk h (ffi_type_clone fuel (rootOf t) h).2 t t') ∧
    (∀ (ts : List TyL) (old : Nat) (h : Heap), Wf h → repsL h ts = true →
      alookup h.arrs old = some ((rootsOf ts).map some ++ [some 0]) →
      old < h.next → szL ts + 1 ≤ fuel →
      ∃ ts' : List TyL, (ffi_type_array_clone fuel old h).1 = h.next ∧
        CloneArrOk h (ffi_type_array_clone fuel old h).2 ts ts' h.next) ∧
    (∀ (ts : List TyL) (old nw i size : Nat)
      (preO pre : List (Option Nat)) (h : Heap),
      Wf h → repsL h ts = true →
      alookup h.arrs old =
        some (preO ++ (rootsOf ts).map some ++ [some 0]) →
      preO.length = i →
      alookup h.arrs nw =
        some (pre ++ List.replicate ts.length none ++ [some 0]) →
      pre.length = i → i + ts.length = size →
      old < h.next → nw < h.next → old ≠ nw → ¬ nw ∈ ownedAddrsL ts →
      szL ts ≤ fuel →
      ∃ ts' : List TyL, (cloneLoop fuel old nw i size h).1 = nw ∧
        CloneLoopOk h (cloneLoop fuel old nw i size h).2 ts ts' nw pre) := by
  intro fuel
  induction fuel with
  | zero =>
    refine ⟨?_, ?_, ?_⟩
    · intro t h _ _ hsz
      exact absurd hsz (by have := szT_pos t; omega)
    · intro ts old h _ _ _ _ hsz
      exact absurd hsz (by have := szL_pos ts; omega)
    · intro ts old nw i size preO pre h _ _ _ _ _ _ _ _ _ _ _ hsz
      exact absurd hsz (by have := szL_pos ts; omega)
  | succ f ih =>
    obtain ⟨ihT, ihA, ihL⟩ := ih
    refine ⟨?_, ?_, ?_⟩
    · -- ffi_type_clone
      intro t h hWf hrep hsz
      cases t with
      | scalar a =>
        simp only [repsB] at hrep
        obtain ⟨d, hd⟩ := Option.isSome_iff_exists.mp hrep
        have hread : readDesc h a = some d := by simp only [readDesc, hd]
        have hcl : ffi_type_clone (f + 1) (rootOf (TyL.scalar a)) h =
            (a, h) := by
          simp only [rootOf, ffi_type_clone, hread]
          rw [if_neg (staticDesc_facts hd).2.2]
        refine ⟨TyL.scalar a, by rw [hcl]; rfl, ?_⟩
        rw [hcl]
        refine ⟨rfl, by simp [repsB, hd], ?_, ?_, fun x _ => rfl,
          fun x _ => rfl, rfl, le_rfl, fun hw => hw, ?_⟩
        · intro x hx
          simp only [ownedAddrs] at hx
          cases hx
        · simp only [ownedAddrs]
          exact List.nodup_nil
        · intro da' aa' ts' heq
          cases heq
      | struct da aa ts =>
        obtain ⟨d, hda, htag, helem, haa, hts⟩ :=
          (repsB_struct_iff h da aa ts).mp hrep
        have hdab := hWf.2.1 _ (alookup_mem hda)
        have haab := hWf.2.2.1 _ (alookup_mem haa)
        have hread : readDesc h da = some d := by
          rw [readDesc_of_ge hdab.1]
          exact hda
        have hsza : szL ts + 1 ≤ f := by
          simp only [szT] at hsz
          omega
        obtain ⟨ts', hna, hshp, hrepc, hblkc, hbnds, hndc, hfd, hfa, hfr,
          hnx, hwfc⟩ := ihA ts aa h hWf hts haa haab.2 hsza
        have hcl : ffi_type_clone (f + 1) (rootOf (TyL.struct da aa ts)) h =
            ffi_type_struct_create_raw (ffi_type_array_clone f aa h).1
              (ffi_type_array_clone f aa h).2 := by
          simp only [rootOf, ffi_type_clone, hread]
          rw [if_pos htag, helem]
        rw [hcl, hna]
        obtain ⟨hs1, hs2, hs3, hs4, hs5, hs6⟩ :=
          struct_create_raw_spec h.next (ffi_type_array_clone f aa h).2
        refine ⟨TyL.struct (ffi_type_array_clone f aa h).2.next h.next ts',
          by rw [hs1]; rfl, ?_, ?_, ?_, ?_, ?_, ?_, ?_, ?_, ?_, ?_⟩
        · simp only [shapeOf]
          rw [hshp]
        · refine (repsB_struct_iff _ _ _ _).mpr
            ⟨⟨0, 0, type_tag.STRUCT, h.next⟩, hs5, rfl, rfl, ?_, ?_⟩
          · rw [hs2]
            exact hblkc
          · refine repsL_frame hrepc ?_ ?_
            · intro x hx
              exact hs6 x (by have := hbnds x hx; omega)
            · intro x hx
              rw [hs2]
        · intro x hx
          simp only [ownedAddrs, List.mem_cons] at hx
          rw [hs3]
          rcases hx with rfl | hx
          · omega
          rcases hx with rfl | hx
          · omega
          · have := hbnds x hx
            omega
        · simp only [ownedAddrs]
          refine List.nodup_cons.mpr ⟨?_, List.nodup_cons.mpr ⟨?_, hndc⟩⟩
          · intro hx
            rcases List.mem_cons.mp hx with heq | hx
            · omega
            · have := hbnds _ hx
              omega
          · intro hx
            have := hbnds _ hx
            omega
        · intro x hxlt
          rw [hs6 x (by omega), hfd x hxlt]
        · intro x hxlt
          rw [hs2, hfa x hxlt]
        · rw [hs4, hfr]
        · rw [hs3]
          omega
        · intro hw
          exact Wf_struct_create_raw (hwfc hw) _
        · intro da' aa' ts'' heq
          injection heq with he1 he2 he3
          subst he1
          subst he2
          exact hs5
    · -- ffi_type_array_clone
      intro ts old h hWf hts hblock hold hsz
      have hlen := array_len_spec hWf hts hblock
      have hstep : ffi_type_array_clone (f + 1) old h =
          cloneLoop f old
            (ffi_type_array_create_empty (ffi_type_array_len h old) h).1 0
            (ffi_type_array_len h old)
            (ffi_type_array_create_empty (ffi_type_array_len h old) h).2 :=
        by simp only [ffi_type_array_clone]
      obtain ⟨hc1, hc2, hc3, hc4, hc5, hc6⟩ :=
        create_empty_spec (ffi_type_array_len h old) h
      rw [hlen] at hstep hc5
      rw [hlen] at hc1 hc2 hc3 hc4 hc6
      rw [hstep, hc1]
      have hWf1 : Wf (ffi_type_array_create_empty ts.length h).2 := by
        have := Wf_create_empty hWf (ffi_type_array_len h old)
        rw [hlen] at this
        exact this
      have hbounds := owned_boundsL hWf hts
      have hrep1 : repsL (ffi_type_array_create_empty ts.length h).2 ts =
          true := by
        refine repsL_frame hts ?_ ?_
        · intro x _
          rw [hc2]
        · intro x hx
          exact hc6 x (by have := hbounds x hx; omega)
      have hbO : alookup (ffi_type_array_create_empty ts.length h).2.arrs
          old = some (([] : List (Option Nat)) ++ (rootsOf ts).map some ++
            [some 0]) := by
        rw [hc6 old (by omega), hblock]
        simp
      have hbN : alookup (ffi_type_array_create_empty ts.length h).2.arrs
          h.next = some (([] : List (Option Nat)) ++
            List.replicate ts.length none ++ [some 0]) := by
        rw [hc5]
        simp
      obtain ⟨ts', hroot, hshp, hrepc, hblkc, hbnds, hndc, hfd, hfa, hfr,
        hnx, hwfc⟩ :=
        ihL ts old h.next 0 ts.length [] []
          (ffi_type_array_create_empty ts.length h).2 hWf1 hrep1 hbO rfl
          hbN rfl (by omega) (by omega) (by omega) (by omega)
          (fun hx => by have := hbounds _ hx; omega) (by omega)
      rw [hc3] at hbnds hnx
      refine ⟨ts', hroot, hshp, hrepc, by simpa using hblkc, ?_, hndc,
        ?_, ?_, ?_, by omega, ?_⟩
      · intro x hx
        have := hbnds x hx
        omega
      · intro x hxlt
        rw [hfd x (by omega), hc2]
      · intro x hxlt
        rw [hfa x (by omega) (by omega), hc6 x (by omega)]
      · rw [hfr, hc4]
      · intro hw
        exact hwfc (by
          have := Wf_create_empty hw (ffi_type_array_len h old)
          rw [hlen] at this
          exact this)
    · -- cloneLoop
      intro ts old nw i size preO pre h hWf hts hbO hpreO hbN hpre hisz
        hold hnw honw hnmem hsz
      cases ts with
      | nil =>
        have hi : ¬ i < size := by
          simp only [List.length_nil] at hisz
          omega
        have hstep : cloneLoop (f + 1) old nw i size h = (nw, h) := by
          simp only [cloneLoop]
          rw [if_neg hi]
        rw [hstep]
        refine ⟨[], rfl, rfl, rfl, by simpa using hbN, ?_,
          List.nodup_nil, fun a _ => rfl, fun a _ _ => rfl, rfl, le_rfl,
          fun hw => hw⟩
        intro a ha
        simp only [ownedAddrsL] at ha
        cases ha
      | cons t rest =>
        have hlt : i < size := by
          simp only [List.length_cons] at hisz
          omega
        have hrepT : repsB h t = true :=
          repsL_mem hts (List.mem_cons_self _ _)
        have hrepR : repsL h rest = true :=
          ((repsL_cons_iff h t rest).mp hts).2
        have hbndT := owned_bounds t h hWf hrepT
        have hbndR := owned_boundsL hWf hrepR
        have hnmemT : ¬ nw ∈ ownedAddrs t := fun hx =>
          hnmem (by
            simp only [ownedAddrsL, List.mem_append]
            exact Or.inl hx)
        have hnmemR : ¬ nw ∈ ownedAddrsL rest := fun hx =>
          hnmem (by
            simp only [ownedAddrsL, List.mem_append]
            exact Or.inr hx)
        have hbO2 : alookup h.arrs old = some (preO ++ some (rootOf t) ::
            ((rootsOf rest).map some ++ [some 0])) := by
          rw [hbO]
          simp [rootsOf, List.append_assoc]
        have hread : readSlot h old i = some (rootOf t) := by
          rw [← hpreO]
          simp only [readSlot, hbO2, get?_append_len]
        have hszT2 : szT t ≤ f := by
          simp only [szL] at hsz
          have := szL_pos rest
          omega
        have hszR : szL rest ≤ f := by
          simp only [szL] at hsz
          have := szT_pos t
          omega
        obtain ⟨t1, ht1root, hshp1, hrep1, hbnd1, hnd1, hfd1, hfa1, hfr1,
          hnx1, hwf1, htz1⟩ := ihT t h hWf hrepT hszT2
        have hstep : cloneLoop (f + 1) old nw i size h =
            cloneLoop f old nw (i + 1) size
              (writeSlot (ffi_type_clone f (rootOf t) h).2 nw i
                (ffi_type_clone f (rootOf t) h).1) := by
          simp only [cloneLoop, hread]
          rw [if_pos hlt]
        rw [hstep, ht1root]
        -- the heap after cloning the head and writing its root
        have hWf3 : Wf (writeSlot (ffi_type_clone f (rootOf t) h).2 nw i
            (rootOf t1)) := Wf_writeSlot (hwf1 hWf) _ _ _
        have hd3 : ∀ x, x < h.next →
            alookup (writeSlot (ffi_type_clone f (rootOf t) h).2 nw i
              (rootOf t1)).descs x = alookup h.descs x := by
          intro x hx
          show alookup (ffi_type_clone f (rootOf t) h).2.descs x = _
          exact hfd1 x hx
        have ha3 : ∀ x, x < h.next → x ≠ nw →
            alookup (writeSlot (ffi_type_clone f (rootOf t) h).2 nw i
              (rootOf t1)).arrs x = alookup h.arrs x := by
          intro x hx hxn
          rw [alookup_writeSlot_ne hxn, hfa1 x hx]
        have hrepR3 : repsL (writeSlot (ffi_type_clone f (rootOf t) h).2
            nw i (rootOf t1)) rest = true := by
          refine repsL_frame hrepR ?_ ?_
          · intro x hx
            exact hd3 x (hbndR x hx).2
          · intro x hx
            exact ha3 x (hbndR x hx).2 (fun he => hnmemR (he ▸ hx))
        have happ : ∀ (A : List (Option Nat)) (x : Option Nat)
            (B C : List (Option Nat)),
            A ++ x :: (B ++ C) = (A ++ [x]) ++ B ++ C := by
          intro A x B C
          simp
        have hbO3 : alookup (writeSlot (ffi_type_clone f (rootOf t) h).2
            nw i (rootOf t1)).arrs old =
            some ((preO ++ [some (rootOf t)]) ++
              (rootsOf rest).map some ++ [some 0]) := by
          rw [ha3 old hold honw, hbO2, happ]
        have hbN3 : alookup (writeSlot (ffi_type_clone f (rootOf t) h).2
            nw i (rootOf t1)).arrs nw =
            some ((pre ++ [some (rootOf t1)]) ++
              List.replicate rest.length none ++ [some 0]) := by
          rw [alookup_writeSlot_self, hfa1 nw hnw, hbN]
          simp only [Option.map_some', Option.some.injEq]
          rw [List.length_cons, List.replicate_succ]
          rw [show pre ++ (none :: List.replicate rest.length none) ++
            [some 0] = pre ++ none :: (List.replicate rest.length none ++
              [some 0]) from by simp]
          rw [← hpre, set_append_len]
          simp
        have hnext3 : (writeSlot (ffi_type_clone f (rootOf t) h).2 nw i
            (rootOf t1)).next = (ffi_type_clone f (rootOf t) h).2.next :=
          rfl
        obtain ⟨ts2, hroot2, hshp2, hrep2, hblk2, hbnd2, hnd2, hfd2, hfa2,
          hfr2, hnx2, hwf2⟩ :=
          ihL rest old nw (i + 1) size (preO ++ [some (rootOf t)])
            (pre ++ [some (rootOf t1)])
            (writeSlot (ffi_type_clone f (rootOf t) h).2 nw i (rootOf t1))
            hWf3 hrepR3 hbO3 (by simp [hpreO]) hbN3 (by simp [hpre])
            (by simp only [List.length_cons] at hisz; omega)
            (by rw [hnext3]; omega) (by rw [hnext3]; omega) honw hnmemR
            hszR
        rw [hnext3] at hbnd2 hnx2
        refine ⟨t1 :: ts2, hroot2, ?_, ?_, ?_, ?_, ?_, ?_, ?_, ?_, ?_, ?_⟩
        · simp only [shapeOfL]
          rw [hshp1, hshp2]
        · refine (repsL_cons_iff _ _ _).mpr ⟨?_, hrep2⟩
          refine repsB_frame (h := writeSlot (ffi_type_clone f (rootOf t)
            h).2 nw i (rootOf t1)) ?_ ?_ ?_
          · refine repsB_frame hrep1 (fun x _ => rfl) ?_
            intro x hx
            exact alookup_writeSlot_ne
              (fun he => by have := hbnd1 x hx; omega) _ _
          · intro x hx
            exact hfd2 x (by have := hbnd1 x hx; omega)
          · intro x hx
            exact hfa2 x (by have := hbnd1 x hx; omega)
              (fun he => by have := hbnd1 x hx; omega)
        · rw [hblk2]
          simp [rootsOf, List.append_assoc]
        · intro x hx
          simp only [ownedAddrsL, List.mem_append] at hx
          rcases hx with hx | hx
          · have := hbnd1 x hx
            omega
          · have := hbnd2 x hx
            omega
        · simp only [ownedAddrsL]
          rw [List.nodup_append]
          refine ⟨hnd1, hnd2, ?_⟩
          intro x hx1 hx2
          have := hbnd1 x hx1
          have := hbnd2 x hx2
          omega
        · intro x hx
          rw [hfd2 x (by omega), hd3 x hx]
        · intro x hx hxn
          rw [hfa2 x (by omega) hxn, ha3 x hx hxn]
        · rw [hfr2]
          show (writeSlot (ffi_type_clone f (rootOf t) h).2 nw i
            (rootOf t1)).frees = _
          show (ffi_type_clone f (rootOf t) h).2.frees = _
          rw [hfr1]
        · omega
        · intro hw
          exact hwf2 (Wf_writeSlot (hwf1 hw) _ _ _)

theorem destroy_scalar_noop {a : Nat} {h : Heap} {f : Nat}
    (hs : (staticDesc a).isSome = true) (hf : 1 ≤ f) :
    ffi_type_destroy f a h = h := by
  obtain ⟨d, hd⟩ := Option.isSome_iff_exists.mp hs
  obtain ⟨f', rfl⟩ : ∃ f', f = f' + 1 := ⟨f - 1, by omega⟩
  have hread : readDesc h a = some d := by simp only [readDesc, hd]
  simp only [ffi_type_destroy, hread]
  rw [if_neg (staticDesc_facts hd).2.2]

theorem clone_scalar_noop {a : Nat} {h : Heap} {f : Nat}
    (hs : (staticDesc a).isSome = true) (hf : 1 ≤ f) :
    ffi_type_clone f a h = (a, h) := by
  obtain ⟨d, hd⟩ := Option.isSome_iff_exists.mp hs
  obtain ⟨f', rfl⟩ : ∃ f', f = f' + 1 := ⟨f - 1, by omega⟩
  have hread : readDesc h a = some d := by simp only [readDesc, hd]
  simp only [ffi_type_clone, hread]
  rw [if_neg (staticDesc_facts hd).2.2]

theorem clone_next_mono : ∀ fuel : Nat,
    (∀ a h, h.next ≤ (ffi_type_clone fuel a h).2.next) ∧
    (∀ a h, h.next ≤ (ffi_type_array_clone fuel a h).2.next) ∧
    (∀ old nw i size h,
      h.next ≤ (cloneLoop fuel old nw i size h).2.next) := by
  intro fuel
  induction fuel with
  | zero =>
    refine ⟨?_, ?_, ?_⟩
    · intro a h
      simp [ffi_type_clone]
    · intro a h
      simp [ffi_type_array_clone]
    · intro o n i s h
      simp [cloneLoop]
  | succ f ih =>
    obtain ⟨ihT, ihA, ihL⟩ := ih
    refine ⟨?_, ?_, ?_⟩
    · intro a h
      rcases hr : readDesc h a with _ | d
      · simp only [ffi_type_clone, hr]
        exact le_rfl
      · simp only [ffi_type_clone, hr]
        by_cases ht : d.type_ = type_tag.STRUCT
        · rw [if_pos ht]
          have h1 := ihA d.elements h
          have h2 := (struct_create_raw_spec
            (ffi_type_array_clone f d.elements h).1
            (ffi_type_array_clone f d.elements h).2).2.2.1
          omega
        · rw [if_neg ht]
    · intro a h
      simp only [ffi_type_array_clone]
      have h1 := (create_empty_spec (ffi_type_array_len h a) h).2.2.1
      have h2 := ihL a
        (ffi_type_array_create_empty (ffi_type_array_len h a) h).1 0
        (ffi_type_array_len h a)
        (ffi_type_array_create_empty (ffi_type_array_len h a) h).2
      omega
    · intro old nw i size h
      by_cases hi : i < size
      · rcases hr : readSlot h old i with _ | v
        · simp only [cloneLoop, hr]
          rw [if_pos hi]
        · simp only [cloneLoop, hr]
          rw [if_pos hi]
          have h1 := ihT v h
          have h2 := ihL old nw (i + 1) size
            (writeSlot (ffi_type_clone f v h).2 nw i
              (ffi_type_clone f v h).1)
          have h3 : (writeSlot (ffi_type_clone f v h).2 nw i
              (ffi_type_clone f v h).1).next =
              (ffi_type_clone f v h).2.next := rfl
          omega
      · simp only [cloneLoop]
        rw [if_neg hi]

theorem writeSlots_spec (nw : Nat) : ∀ (es : List Nat)
    (pre : List (Option Nat)) (h : Heap),
    alookup h.arrs nw =
      some (pre ++ List.replicate es.length none ++ [some 0]) →
    (writeSlots nw es pre.length h).descs = h.descs ∧
    (writeSlots nw es pre.length h).next = h.next ∧
    (writeSlots nw es pre.length h).frees = h.frees ∧
    alookup (writeSlots nw es pre.length h).arrs nw =
      some (pre ++ es.map some ++ [some 0]) ∧
    (∀ a, a ≠ nw →
      alookup (writeSlots nw es pre.length h).arrs a =
        alookup h.arrs a) := by
  intro es
  induction es with
  | nil =>
    intro pre h hb
    exact ⟨rfl, rfl, rfl, by simpa using hb, fun a _ => rfl⟩
  | cons e rest ih =>
    intro pre h hb
    have hb2 : alookup (writeSlot h nw pre.length e).arrs nw =
        some ((pre ++ [some e]) ++
          List.replicate rest.length none ++ [some 0]) := by
      rw [alookup_writeSlot_self, hb]
      simp only [Option.map_some', Option.some.injEq, List.length_cons,
        List.replicate_succ]
      rw [show pre ++ (none :: List.replicate rest.length none) ++
        [some 0] = pre ++ none :: (List.replicate rest.length none ++
          [some 0]) from by simp]
      rw [set_append_len]
      simp
    have hlen : (pre ++ [some e]).length = pre.length + 1 := by simp
    have hstep : writeSlots nw (e :: rest) pre.length h =
        writeSlots nw rest (pre.length + 1)
          (writeSlot h nw pre.length e) := by
      simp only [writeSlots]
    obtain ⟨i1, i2, i3, i4, i5⟩ := ih (pre ++ [some e])
      (writeSlot h nw pre.length e) hb2
    rw [hlen] at i1 i2 i3 i4 i5
    rw [hstep]
    refine ⟨i1, i2, i3, ?_, ?_⟩
    · rw [i4]
      simp [List.append_assoc]
    · intro a ha
      rw [i5 a ha, alookup_writeSlot_ne ha]

theorem array_create_spec (elements : List Nat) (h : Heap) :
    (ffi_type_array_create elements h).1 = h.next ∧
    (ffi_type_array_create elements h).2.descs = h.descs ∧
    (ffi_type_array_create elements h).2.next = h.next + 1 ∧
    (ffi_type_array_create elements h).2.frees = h.frees ∧
    alookup (ffi_type_array_create elements h).2.arrs h.next =
      some (elements.map some ++ [some 0]) ∧
    (∀ a, a ≠ h.next →
      alookup (ffi_type_array_create elements h).2.arrs a =
        alookup h.arrs a) := by
  obtain ⟨hc1, hc2, hc3, hc4, hc5, hc6⟩ :=
    create_empty_spec elements.length h
  have hstep : ffi_type_array_create elements h =
      ((ffi_type_array_create_empty elements.length h).1,
        writeSlots (ffi_type_array_create_empty elements.length h).1
          elements 0
          (ffi_type_array_create_empty elements.length h).2) := by
    simp only [ffi_type_array_create]
  have hb : alookup
      (ffi_type_array_create_empty elements.length h).2.arrs
      (ffi_type_array_create_empty elements.length h).1 =
      some (([] : List (Option Nat)) ++
        List.replicate elements.length none ++ [some 0]) := by
    rw [hc1, hc5]
    simp
  obtain ⟨w1, w2, w3, w4, w5⟩ := writeSlots_spec
    (ffi_type_array_create_empty elements.length h).1 elements []
    (ffi_type_array_create_empty elements.length h).2 hb
  simp only [List.length_nil] at w1 w2 w3 w4 w5
  rw [hstep]
  refine ⟨hc1, ?_, ?_, ?_, ?_, ?_⟩
  · rw [w1, hc2]
  · rw [w2, hc3]
  · rw [w3, hc4]
  · rw [← hc1]
    rw [w4]
    simp
  · intro a ha
    rw [w5 a (by omega : a ≠ (ffi_type_array_create_empty
      elements.length h).1), hc6 a (by omega)]

/-- C1: the claim says `Type::structure_from_array` absorbs ownership of
the consumed `TypeArray`, so the backing elements array is freed exactly
once.  The code violates this: it never `mem::forget`s the consumed
handle, so the handle's drop destroys the array inside
`structure_from_array`, and the returned structure's own destroy frees it
a second time.  Running the spec's own scenario
`StructureFromArray(TypeArray::new([u64]))` from the empty heap and then
dropping the structure leaves the free trace [32, 32, 33]: the backing
array at address 32 is freed twice. -/
theorem C1_structure_from_array_frees_array_twice :
    c1Arr.1 = 32 ∧ c1Struct.1 = 33 ∧ c1Final.frees = [32, 32, 33] ∧
    List.count 32 c1Final.frees = 2 := by
  refine ⟨by decide, by decide, by decide, by decide⟩

/-- C6: `ffi_type_array_create_empty len` allocates exactly `len + 1`
descriptor-address slots, writes the null sentinel into the last slot
(index `len`, the only initialized slot), and on `malloc` failure the
process aborts (the checked variant returns `ProcResult.abort`, never a
recoverable error value). -/
theorem C6_create_empty_allocates_len_plus_one_with_sentinel
    (len : Nat) (h : Heap) :
    alookup (ffi_type_array_create_empty len h).2.arrs
        (ffi_type_array_create_empty len h).1 =
      some (List.replicate len none ++ [some 0]) ∧
    (List.replicate len (none : Option Nat) ++ [some 0]).length =
      len + 1 ∧
    (List.replicate len (none : Option Nat) ++ [some 0]).get? len =
      some (some 0) ∧
    ffi_type_array_create_empty_checked true len h =
      ProcResult.ok (ffi_type_array_create_empty len h) ∧
    ffi_type_array_create_empty_checked false len h =
      ProcResult.abort := by
  obtain ⟨hc1, -, -, -, hc5, -⟩ := create_empty_spec len h
  refine ⟨?_, by simp, ?_, rfl, rfl⟩
  · rw [hc1, hc5]
  · have := get?_append_len (some 0) ([] : List (Option Nat))
      (List.replicate len none)
    simp

/-- C7: on a null-terminated array block, `TypeArray::len` terminates and
returns exactly the number of non-null slots preceding the sentinel; it is
recomputed by running the scan (`ffi_type_array_len`, i.e. `scanLen` from
slot 0 over the block) on every call — no length is stored in the
handle. -/
theorem C7_len_scans_from_slot_zero_to_sentinel (h : Heap) (a : Nat)
    (roots : List Nat)
    (hblock : alookup h.arrs a = some (roots.map some ++ [some 0]))
    (hnz : ∀ r ∈ roots, r ≠ 0) :
    TypeArray.len h a = roots.length ∧
    TypeArray.len h a = ffi_type_array_len h a ∧
    ffi_type_array_len h a = scanLen (roots.map some ++ [some 0]) := by
  refine ⟨?_, rfl, ?_⟩
  · simp only [TypeArray.len, ffi_type_array_len, hblock]
    exact scanLen_roots roots hnz
  · simp only [ffi_type_array_len, hblock]

/-- C7 witness: a concrete two-slot block (one element, one sentinel). -/
theorem C7_witness :
    alookup (Heap.mk [] [(32, [some 8, some 0])] 33 []).arrs 32 =
      some ([8].map some ++ [some 0]) ∧
    (∀ r ∈ [8], r ≠ 0) ∧
    (TypeArray.len ⟨[], [(32, [some 8, some 0])], 33, []⟩ 32 =
        [8].length ∧
      TypeArray.len ⟨[], [(32, [some 8, some 0])], 33, []⟩ 32 =
        ffi_type_array_len ⟨[], [(32, [some 8, some 0])], 33, []⟩ 32 ∧
      ffi_type_array_len ⟨[], [(32, [some 8, some 0])], 33, []⟩ 32 =
        scanLen ([8].map some ++ [some 0])) :=
  ⟨by decide, by decide,
    C7_len_scans_from_slot_zero_to_sentinel _ 32 [8] (by decide)
      (by decide)⟩

/-- C8: every primitive-registry accessor is a pure total function that
leaves the heap untouched (allocates nothing, returns the same state),
yields the same process-wide static descriptor address on every call, and
that address refers to one of the static descriptors (for the 64-bit
target configuration, `usize`/`isize` alias `u64`/`i64`). -/
theorem C8_registry_accessors_pure_and_stable : ∀ h h2 : Heap,
    ((Type'.void h).2 = h ∧ (Type'.void h).1 = (Type'.void h2).1 ∧
      (staticDesc (Type'.void h).1).isSome = true) ∧
    ((Type'.u8 h).2 = h ∧ (Type'.u8 h).1 = (Type'.u8 h2).1 ∧
      (staticDesc (Type'.u8 h).1).isSome = true) ∧
    ((Type'.i8 h).2 = h ∧ (Type'.i8 h).1 = (Type'.i8 h2).1 ∧
      (staticDesc (Type'.i8 h).1).isSome = true) ∧
    ((Type'.u16 h).2 = h ∧ (Type'.u16 h).1 = (Type'.u16 h2).1 ∧
      (staticDesc (Type'.u16 h).1).isSome = true) ∧
    ((Type'.i16 h).2 = h ∧ (Type'.i16 h).1 = (Type'.i16 h2).1 ∧
      (staticDesc (Type'.i16 h).1).isSome = true) ∧
    ((Type'.u32 h).2 = h ∧ (Type'.u32 h).1 = (Type'.u32 h2).1 ∧
      (staticDesc (Type'.u32 h).1).isSome = true) ∧
    ((Type'.i32 h).2 = h ∧ (Type'.i32 h).1 = (Type'.i32 h2).1 ∧
      (staticDesc (Type'.i32 h).1).isSome = true) ∧
    ((Type'.u64 h).2 = h ∧ (Type'.u64 h).1 = (Type'.u64 h2).1 ∧
      (staticDesc (Type'.u64 h).1).isSome = true) ∧
    ((Type'.i64 h).2 = h ∧ (Type'.i64 h).1 = (Type'.i64 h2).1 ∧
      (staticDesc (Type'.i64 h).1).isSome = true) ∧
    ((Type'.usize h).2 = h ∧ (Type'.usize h).1 = (Type'.u64 h2).1 ∧
      (staticDesc (Type'.usize h).1).isSome = true) ∧
    ((Type'.isize h).2 = h ∧ (Type'.isize h).1 = (Type'.i64 h2).1 ∧
      (staticDesc (Type'.isize h).1).isSome = true) ∧
    ((Type'.f32 h).2 = h ∧ (Type'.f32 h).1 = (Type'.f32 h2).1 ∧
      (staticDesc (Type'.f32 h).1).isSome = true) ∧
    ((Type'.f64 h).2 = h ∧ (Type'.f64 h).1 = (Type'.f64 h2).1 ∧
      (staticDesc (Type'.f64 h).1).isSome = true) ∧
    ((Type'.pointer h).2 = h ∧
      (Type'.pointer h).1 = (Type'.pointer h2).1 ∧
      (staticDesc (Type'.pointer h).1).isSome = true) ∧
    ((Type'.longdouble h).2 = h ∧
      (Type'.longdouble h).1 = (Type'.longdouble h2).1 ∧
      (staticDesc (Type'.longdouble h).1).isSome = true) ∧
    ((Type'.c32 h).2 = h ∧ (Type'.c32 h).1 = (Type'.c32 h2).1 ∧
      (staticDesc (Type'.c32 h).1).isSome = true) ∧
    ((Type'.c64 h).2 = h ∧ (Type'.c64 h).1 = (Type'.c64 h2).1 ∧
      (staticDesc (Type'.c64 h).1).isSome = true) ∧
    ((Type'.complex_longdouble h).2 = h ∧
      (Type'.complex_longdouble h).1 =
        (Type'.complex_longdouble h2).1 ∧
      (staticDesc (Type'.complex_longdouble h).1).isSome = true) := by
  intro h h2
  exact ⟨⟨rfl, rfl, rfl⟩, ⟨rfl, rfl, rfl⟩, ⟨rfl, rfl, rfl⟩,
    ⟨rfl, rfl, rfl⟩, ⟨rfl, rfl, rfl⟩, ⟨rfl, rfl, rfl⟩, ⟨rfl, rfl, rfl⟩,
    ⟨rfl, rfl, rfl⟩, ⟨rfl, rfl, rfl⟩, ⟨rfl, rfl, rfl⟩, ⟨rfl, rfl, rfl⟩,
    ⟨rfl, rfl, rfl⟩, ⟨rfl, rfl, rfl⟩, ⟨rfl, rfl, rfl⟩, ⟨rfl, rfl, rfl⟩,
    ⟨rfl, rfl, rfl⟩, ⟨rfl, rfl, rfl⟩, ⟨rfl, rfl, rfl⟩⟩

/-- C2: destroying a represented tree frees exactly its owned blocks,
each exactly once (the free trace gains the depth-first destroy order,
a permutation of the duplicate-free owned-address list), never frees a
borrowed static, and destroying a scalar handle is a no-op — so two
independently obtained handles to the same scalar can both be destroyed
without a double free.  The exact result heap `destroyedHeap t h` shows
the depth-first order: for a structure, the elements are destroyed first,
then the backing array is freed, then the descriptor itself. -/
theorem C2_destroy_frees_each_owned_exactly_once (fuel : Nat) (h : Heap)
    (t : TyL) (hWf : Wf h) (hg : goodTree h t) (hf : szT t ≤ fuel) :
    (∀ a f1 f2, (staticDesc a).isSome = true → 1 ≤ f1 → 1 ≤ f2 →
      ffi_type_destroy f2 a (ffi_type_destroy f1 a h) = h) ∧
    ffi_type_destroy fuel (rootOf t) h = destroyedHeap t h ∧
    (∀ a, a ∈ ownedAddrs t →
      List.count a (destroyedHeap t h).frees =
        List.count a h.frees + 1) ∧
    (∀ a, (staticDesc a).isSome = true →
      List.count a (destroyedHeap t h).frees = List.count a h.frees) := by
  obtain ⟨hrep, hnd⟩ := hg
  refine ⟨?_, (destroy_master fuel).1 t h hWf hrep hnd hf, ?_, ?_⟩
  · intro a f1 f2 hs h1 h2
    rw [destroy_scalar_noop hs h1, destroy_scalar_noop hs h2]
  · intro a ha
    show List.count a (h.frees ++ destroyOrder t) = _
    rw [List.count_append, (destroyOrder_perm t).count_eq a,
      List.count_eq_one_of_mem hnd ha]
  · intro a hs
    obtain ⟨d, hd⟩ := Option.isSome_iff_exists.mp hs
    have hfacts := staticDesc_facts hd
    have hno : ¬ a ∈ ownedAddrs t := fun hmem => by
      have := owned_bounds t h hWf hrep a hmem
      omega
    have hno2 : ¬ a ∈ destroyOrder t := fun hmem =>
      hno ((destroyOrder_perm t).mem_iff.mp hmem)
    show List.count a (h.frees ++ destroyOrder t) = _
    rw [List.count_append, List.count_eq_zero_of_not_mem hno2]
    omega

/-- C2 witness: the concrete structure `Structure([i64, i64, u64])` built
from the empty heap. -/
theorem C2_witness :
    Wf hw2 ∧ goodTree hw2 tw2 ∧ szT tw2 ≤ 100 ∧
    ((∀ a f1 f2, (staticDesc a).isSome = true → 1 ≤ f1 → 1 ≤ f2 →
        ffi_type_destroy f2 a (ffi_type_destroy f1 a hw2) = hw2) ∧
      ffi_type_destroy 100 (rootOf tw2) hw2 = destroyedHeap tw2 hw2 ∧
      (∀ a, a ∈ ownedAddrs tw2 →
        List.count a (destroyedHeap tw2 hw2).frees =
          List.count a hw2.frees + 1) ∧
      (∀ a, (staticDesc a).isSome = true →
        List.count a (destroyedHeap tw2 hw2).frees =
          List.count a hw2.frees)) :=
  ⟨by decide, by decide, by decide,
    C2_destroy_frees_each_owned_exactly_once 100 hw2 tw2 (by decide)
      ⟨by decide, by decide⟩ (by decide)⟩

/-- C3: `TypeArray::new([t1..tn])` yields a block whose slot `i` holds
exactly member `i`'s original descriptor address for every `i < n`, whose
scanned length is `n` (and `0` for the empty list), while the consumed
member handles are released without running any destructor: the
descriptor heap and the free trace are untouched. -/
theorem C3_array_new_copies_addresses_forgets_handles
    (elements : List Nat) (h : Heap) (hnz : ∀ e ∈ elements, e ≠ 0) :
    alookup (TypeArray.new elements h).2.arrs
        (TypeArray.new elements h).1 =
      some (elements.map some ++ [some 0]) ∧
    (∀ i, i < elements.length →
      readSlot (TypeArray.new elements h).2
        (TypeArray.new elements h).1 i = elements.get? i) ∧
    TypeArray.len (TypeArray.new elements h).2
      (TypeArray.new elements h).1 = elements.length ∧
    TypeArray.len (TypeArray.new ([] : List Nat) h).2
      (TypeArray.new ([] : List Nat) h).1 = 0 ∧
    (TypeArray.new elements h).2.descs = h.descs ∧
    (TypeArray.new elements h).2.frees = h.frees := by
  obtain ⟨a1, a2, a3, a4, a5, a6⟩ := array_create_spec elements h
  have hblock : alookup (ffi_type_array_create elements h).2.arrs
      (ffi_type_array_create elements h).1 =
      some (elements.map some ++ [some 0]) := by
    rw [a1, a5]
  refine ⟨hblock, ?_, ?_, ?_, a2, a4⟩
  · intro i hi
    obtain ⟨e, he⟩ : ∃ e, elements.get? i = some e :=
      ⟨elements.get ⟨i, hi⟩, List.get?_eq_get hi⟩
    show readSlot (ffi_type_array_create elements h).2
      (ffi_type_array_create elements h).1 i = elements.get? i
    simp only [readSlot, hblock]
    rw [List.get?_append
      (show i < (List.map some elements).length from by simpa using hi)]
    rw [List.get?_map, he, Option.map_some']
  · show ffi_type_array_len (ffi_type_array_create elements h).2
      (ffi_type_array_create elements h).1 = elements.length
    simp only [ffi_type_array_len, hblock]
    exact scanLen_roots elements hnz
  · obtain ⟨b1, -, -, -, b5, -⟩ :=
      array_create_spec ([] : List Nat) h
    show ffi_type_array_len (ffi_type_array_create [] h).2
      (ffi_type_array_create [] h).1 = 0
    rw [b1]
    simp only [ffi_type_array_len, b5]
    rfl

/-- C3 witness: one `u64` member from the empty heap, plus the empty
array. -/
theorem C3_witness :
    (∀ e ∈ [ffi_type_uint64], e ≠ 0) ∧
    (alookup (TypeArray.new [ffi_type_uint64] hw0).2.arrs
        (TypeArray.new [ffi_type_uint64] hw0).1 =
      some ([ffi_type_uint64].map some ++ [some 0]) ∧
    (∀ i, i < [ffi_type_uint64].length →
      readSlot (TypeArray.new [ffi_type_uint64] hw0).2
        (TypeArray.new [ffi_type_uint64] hw0).1 i =
        [ffi_type_uint64].get? i) ∧
    TypeArray.len (TypeArray.new [ffi_type_uint64] hw0).2
      (TypeArray.new [ffi_type_uint64] hw0).1 =
      [ffi_type_uint64].length ∧
    TypeArray.len (TypeArray.new ([] : List Nat) hw0).2
      (TypeArray.new ([] : List Nat) hw0).1 = 0 ∧
    (TypeArray.new [ffi_type_uint64] hw0).2.descs = hw0.descs ∧
    (TypeArray.new [ffi_type_uint64] hw0).2.frees = hw0.frees) :=
  ⟨by decide,
    C3_array_new_copies_addresses_forgets_handles [ffi_type_uint64] hw0
      (by decide)⟩

/-- C5: `Type::structure` builds the member array and wraps it in a fresh
heap-allocated STRUCT descriptor whose `size` and `alignment` are 0, whose
tag is STRUCT, and whose `elements` pointer is exactly the array's backing
address; the result is owned (a heap block, not one of the statics). -/
theorem C5_structure_builds_zeroed_struct_descriptor (fields : List Nat)
    (h : Heap) (hWf : Wf h) :
    alookup (Type'.structure' fields h).2.descs
        (Type'.structure' fields h).1 =
      some ⟨0, 0, type_tag.STRUCT, (ffi_type_array_create fields h).1⟩ ∧
    alookup (Type'.structure' fields h).2.arrs
        (ffi_type_array_create fields h).1 =
      some (fields.map some ++ [some 0]) ∧
    staticDesc (Type'.structure' fields h).1 = none ∧
    heapBase ≤ (Type'.structure' fields h).1 := by
  obtain ⟨a1, a2, a3, a4, a5, a6⟩ := array_create_spec fields h
  obtain ⟨s1, s2, s3, s4, s5, s6⟩ := struct_create_raw_spec
    (ffi_type_array_create fields h).1 (ffi_type_array_create fields h).2
  have hstep : Type'.structure' fields h =
      ffi_type_struct_create_raw (ffi_type_array_create fields h).1
        (ffi_type_array_create fields h).2 := by
    simp only [Type'.structure', ffi_type_struct_create]
  rw [hstep]
  refine ⟨?_, ?_, ?_, ?_⟩
  · rw [s1, s5]
  · rw [s2, a1, a5]
  · rw [s1, a3]
    exact staticDesc_eq_none (by have := hWf.1; omega)
  · rw [s1, a3]
    have := hWf.1
    omega

/-- C5 witness: `Structure([u64])` from the empty heap. -/
theorem C5_witness :
    Wf hw0 ∧
    (alookup (Type'.structure' [ffi_type_uint64] hw0).2.descs
        (Type'.structure' [ffi_type_uint64] hw0).1 =
      some ⟨0, 0, type_tag.STRUCT,
        (ffi_type_array_create [ffi_type_uint64] hw0).1⟩ ∧
    alookup (Type'.structure' [ffi_type_uint64] hw0).2.arrs
        (ffi_type_array_create [ffi_type_uint64] hw0).1 =
      some ([ffi_type_uint64].map some ++ [some 0]) ∧
    staticDesc (Type'.structure' [ffi_type_uint64] hw0).1 = none ∧
    heapBase ≤ (Type'.structure' [ffi_type_uint64] hw0).1) :=
  ⟨by decide,
    C5_structure_builds_zeroed_struct_descriptor [ffi_type_uint64] hw0
      (by decide)⟩

/-- C4: Clone shares every borrowed scalar node unchanged (same static
address, heap untouched) and deep-copies every owned node: the clone has
the same shape (so scalar leaves keep their addresses), is fully
represented, shares no owned heap address with the original, performs no
free, and afterwards original and clone are independently destroyable in
either order with every owned block freed exactly once. -/
theorem C4_clone_deep_copies_owned_shares_borrowed (fuel : Nat)
    (h : Heap) (t : TyL) (hWf : Wf h) (hg : goodTree h t)
    (hf : szT t ≤ fuel) :
    (∀ a f1, (staticDesc a).isSome = true → 1 ≤ f1 →
      ffi_type_clone f1 a h = (a, h)) ∧
    ∃ t', (ffi_type_clone fuel (rootOf t) h).1 = rootOf t' ∧
      CloneOk h (ffi_type_clone fuel (rootOf t) h).2 t t' ∧
      (∀ a, a ∈ ownedAddrs t' → ¬ a ∈ ownedAddrs t) ∧
      goodTree (ffi_type_clone fuel (rootOf t) h).2 t ∧
      goodTree (ffi_type_clone fuel (rootOf t) h).2 t' ∧
      (∀ f2, szT t ≤ f2 → szT t' ≤ f2 →
        (ffi_type_destroy f2 (rootOf t) (ffi_type_destroy f2 (rootOf t')
            (ffi_type_clone fuel (rootOf t) h).2)).frees =
          h.frees ++ destroyOrder t' ++ destroyOrder t ∧
        (ffi_type_destroy f2 (rootOf t') (ffi_type_destroy f2 (rootOf t)
            (ffi_type_clone fuel (rootOf t) h).2)).frees =
          h.frees ++ destroyOrder t ++ destroyOrder t' ∧
        (∀ a, a ∈ ownedAddrs t ∨ a ∈ ownedAddrs t' →
          List.count a
              (h.frees ++ destroyOrder t' ++ destroyOrder t) =
            List.count a h.frees + 1)) := by
  obtain ⟨hrep, hnd⟩ := hg
  refine ⟨fun a f1 hs h1 => clone_scalar_noop hs h1, ?_⟩
  obtain ⟨t', hroot, hok⟩ := (clone_master fuel).1 t h hWf hrep hf
  obtain ⟨hshp, hrepc, hbnd, hndc, hfd, hfa, hfr, hnx, hwfc, htz⟩ := hok
  have hboundsT := owned_bounds t h hWf hrep
  have hdisj : ∀ a, a ∈ ownedAddrs t' → ¬ a ∈ ownedAddrs t := by
    intro a ha hmem
    have h1 := hbnd a ha
    have h2 := hboundsT a hmem
    omega
  have hrepT2 : repsB (ffi_type_clone fuel (rootOf t) h).2 t = true :=
    repsB_frame hrep (fun a ha => hfd a (hboundsT a ha).2)
      (fun a ha => hfa a (hboundsT a ha).2)
  have hWf2 : Wf (ffi_type_clone fuel (rootOf t) h).2 := hwfc hWf
  refine ⟨t', hroot,
    ⟨hshp, hrepc, hbnd, hndc, hfd, hfa, hfr, hnx, hwfc, htz⟩, hdisj,
    ⟨hrepT2, hnd⟩, ⟨hrepc, hndc⟩, ?_⟩
  intro f2 hszt hszc
  have hA1 : ffi_type_destroy f2 (rootOf t')
      (ffi_type_clone fuel (rootOf t) h).2 =
      destroyedHeap t' (ffi_type_clone fuel (rootOf t) h).2 :=
    (destroy_master f2).1 t' _ hWf2 hrepc hndc hszc
  have hrepA : repsB (destroyedHeap t'
      (ffi_type_clone fuel (rootOf t) h).2) t = true := by
    refine repsB_frame hrepT2 ?_ ?_ <;>
    · intro a ha
      exact alookup_removeKeys_not_mem (fun hm => hdisj a hm ha) _
  have hWfA : Wf (destroyedHeap t'
      (ffi_type_clone fuel (rootOf t) h).2) := Wf_removeKeys hWf2 _ _
  have hA2 : ffi_type_destroy f2 (rootOf t)
      (destroyedHeap t' (ffi_type_clone fuel (rootOf t) h).2) =
      destroyedHeap t
        (destroyedHeap t' (ffi_type_clone fuel (rootOf t) h).2) :=
    (destroy_master f2).1 t _ hWfA hrepA hnd hszt
  have hB1 : ffi_type_destroy f2 (rootOf t)
      (ffi_type_clone fuel (rootOf t) h).2 =
      destroyedHeap t (ffi_type_clone fuel (rootOf t) h).2 :=
    (destroy_master f2).1 t _ hWf2 hrepT2 hnd hszt
  have hrepB : repsB (destroyedHeap t
      (ffi_type_clone fuel (rootOf t) h).2) t' = true := by
    refine repsB_frame hrepc ?_ ?_ <;>
    · intro a ha
      exact alookup_removeKeys_not_mem (hdisj a ha) _
  have hWfB : Wf (destroyedHeap t
      (ffi_type_clone fuel (rootOf t) h).2) := Wf_removeKeys hWf2 _ _
  have hB2 : ffi_type_destroy f2 (rootOf t')
      (destroyedHeap t (ffi_type_clone fuel (rootOf t) h).2) =
      destroyedHeap t'
        (destroyedHeap t (ffi_type_clone fuel (rootOf t) h).2) :=
    (destroy_master f2).1 t' _ hWfB hrepB hndc hszc
  refine ⟨?_, ?_, ?_⟩
  · rw [hA1, hA2]
    show ((ffi_type_clone fuel (rootOf t) h).2.frees ++ destroyOrder t')
      ++ destroyOrder t = _
    rw [hfr]
  · rw [hB1, hB2]
    show ((ffi_type_clone fuel (rootOf t) h).2.frees ++ destroyOrder t)
      ++ destroyOrder t' = _
    rw [hfr]
  · intro a hmem
    rw [List.count_append, List.count_append,
      (destroyOrder_perm t).count_eq a, (destroyOrder_perm t').count_eq a]
    rcases hmem with hmem | hmem
    · rw [List.count_eq_one_of_mem hnd hmem,
        List.count_eq_zero_of_not_mem (fun hm => hdisj a hm hmem)]
    · rw [List.count_eq_one_of_mem hndc hmem,
        List.count_eq_zero_of_not_mem (hdisj a hmem)]

/-- C4 witness: cloning the concrete structure `Structure([i64, i64,
u64])` built from the empty heap. -/
theorem C4_witness :
    Wf hw2 ∧ goodTree hw2 tw2 ∧ szT tw2 ≤ 100 ∧
    ((∀ a f1, (staticDesc a).isSome = true → 1 ≤ f1 →
        ffi_type_clone f1 a hw2 = (a, hw2)) ∧
      ∃ t', (ffi_type_clone 100 (rootOf tw2) hw2).1 = rootOf t' ∧
        CloneOk hw2 (ffi_type_clone 100 (rootOf tw2) hw2).2 tw2 t' ∧
        (∀ a, a ∈ ownedAddrs t' → ¬ a ∈ ownedAddrs tw2) ∧
        goodTree (ffi_type_clone 100 (rootOf tw2) hw2).2 tw2 ∧
        goodTree (ffi_type_clone 100 (rootOf tw2) hw2).2 t' ∧
        (∀ f2, szT tw2 ≤ f2 → szT t' ≤ f2 →
          (ffi_type_destroy f2 (rootOf tw2)
              (ffi_type_destroy f2 (rootOf t')
                (ffi_type_clone 100 (rootOf tw2) hw2).2)).frees =
            hw2.frees ++ destroyOrder t' ++ destroyOrder tw2 ∧
          (ffi_type_destroy f2 (rootOf t')
              (ffi_type_destroy f2 (rootOf tw2)
                (ffi_type_clone 100 (rootOf tw2) hw2).2)).frees =
            hw2.frees ++ destroyOrder tw2 ++ destroyOrder t' ∧
          (∀ a, a ∈ ownedAddrs tw2 ∨ a ∈ ownedAddrs t' →
            List.count a (hw2.frees ++ destroyOrder t' ++
                destroyOrder tw2) =
              List.count a hw2.frees + 1))) :=
  ⟨by decide, ⟨by decide, by decide⟩, by decide,
    C4_clone_deep_copies_owned_shares_borrowed 100 hw2 tw2 (by decide)
      ⟨by decide, by decide⟩ (by decide)⟩

/-- C9: cloning a structure never copies the original descriptor's `size`
and `alignment`: whatever values the original carries (they are
unconstrained by the representation predicate, so externally populated
nonzero values are covered), the clone's descriptor is rebuilt by
`ffi_type_struct_create_raw` with `size = 0` and `alignment = 0`. -/
theorem C9_clone_zeroes_size_and_alignment (fuel : Nat) (h : Heap)
    (da aa : Nat) (ts : List TyL) (hWf : Wf h)
    (hrep : repsB h (TyL.struct da aa ts) = true)
    (hf : szT (TyL.struct da aa ts) ≤ fuel) :
    ∃ e, alookup (ffi_type_clone fuel da h).2.descs
        (ffi_type_clone fuel da h).1 =
      some ⟨0, 0, type_tag.STRUCT, e⟩ := by
  obtain ⟨t', hroot, hok⟩ :=
    (clone_master fuel).1 (TyL.struct da aa ts) h hWf hrep hf
  obtain ⟨hshp, -, -, -, -, -, -, -, -, htz⟩ := hok
  cases t' with
  | scalar x =>
    exfalso
    simp only [shapeOf] at hshp
    cases hshp
  | struct da' aa' ts' =>
    refine ⟨aa', ?_⟩
    have hroot2 : (ffi_type_clone fuel da h).1 = da' := by
      simpa [rootOf] using hroot
    have hlook := htz da' aa' ts' rfl
    rw [hroot2]
    simpa [rootOf] using hlook

/-- C9 witness: the populated structure in `hw9` has `size = 16` and
`alignment = 8`; its clone's descriptor nevertheless carries zeros. -/
theorem C9_witness :
    Wf hw9 ∧ repsB hw9 tw9 = true ∧ szT tw9 ≤ 100 ∧
    alookup hw9.descs 32 = some ⟨16, 8, type_tag.STRUCT, 33⟩ ∧
    ∃ e, alookup (ffi_type_clone 100 32 hw9).2.descs
        (ffi_type_clone 100 32 hw9).1 =
      some ⟨0, 0, type_tag.STRUCT, e⟩ :=
  ⟨by decide, by decide, by decide, by decide,
    C9_clone_zeroes_size_and_alignment 100 hw9 32 33
      [TyL.scalar ffi_type_uint64] (by decide) (by decide) (by decide)⟩

/-- C10: the borrowed-versus-owned decision of Clone and Destroy is made
solely by the descriptor's type tag: a descriptor whose tag is not STRUCT
is left untouched by destroy and returned address-identical by clone,
regardless of how it was allocated; a descriptor whose tag is STRUCT is
freed by destroy (its address enters the free trace) and is deep-copied
by clone (the returned address is a fresh allocation, at or above the
current allocation counter). -/
theorem C10_tag_alone_decides_ownership (h : Heap) (a : Nat)
    (d : FfiType) (fuel : Nat) (hread : readDesc h a = some d) :
    (d.type_ ≠ type_tag.STRUCT →
      ffi_type_destroy (fuel + 1) a h = h ∧
      ffi_type_clone (fuel + 1) a h = (a, h)) ∧
    (d.type_ = type_tag.STRUCT →
      a ∈ (ffi_type_destroy (fuel + 1) a h).frees ∧
      h.next ≤ (ffi_type_clone (fuel + 1) a h).1) := by
  constructor
  · intro htag
    constructor
    · simp only [ffi_type_destroy, hread]
      rw [if_neg htag]
    · simp only [ffi_type_clone, hread]
      rw [if_neg htag]
  · intro htag
    constructor
    · simp only [ffi_type_destroy, hread]
      rw [if_pos htag]
      simp only [free]
      exact List.mem_append_right _ (List.mem_singleton.mpr rfl)
    · simp only [ffi_type_clone, hread]
      rw [if_pos htag]
      have h1 := (clone_next_mono fuel).2.1 d.elements h
      have h2 := (struct_create_raw_spec
        (ffi_type_array_clone fuel d.elements h).1
        (ffi_type_array_clone fuel d.elements h).2).1
      omega

/-- C10 witness: the static `u64` descriptor (tag 11) is shared and never
freed; the heap STRUCT descriptor of `hw9` (tag 13) is freed by destroy
and its clone is a fresh address. -/
theorem C10_witness :
    (readDesc hw0 ffi_type_uint64 = some ⟨8, 8, 11, 0⟩ ∧
      (ffi_type_destroy 5 ffi_type_uint64 hw0 = hw0 ∧
        ffi_type_clone 5 ffi_type_uint64 hw0 = (ffi_type_uint64, hw0))) ∧
    (readDesc hw9 32 = some ⟨16, 8, type_tag.STRUCT, 33⟩ ∧
      (32 ∈ (ffi_type_destroy 5 32 hw9).frees ∧
        hw9.next ≤ (ffi_type_clone 5 32 hw9).1)) :=
  ⟨⟨by decide,
      (C10_tag_alone_decides_ownership hw0 ffi_type_uint64 ⟨8, 8, 11, 0⟩
        4 (by decide)).1 (by decide)⟩,
    ⟨by decide,
      (C10_tag_alone_decides_ownership hw9 32 ⟨16, 8, type_tag.STRUCT, 33⟩
        4 (by decide)).2 (by decide)⟩⟩

end LibffiRs
